import Mathlib

/-! # Infix expression evaluator (SHIYER): tagged value, linked stack, tokenizer,
validator and two-stack evaluator; polynomial calculator

Shallow embedding of `NorS.cpp`, `Stack.cpp` and `main.cpp`, and of the
polynomial functions of `cp.cpp`.

Conventions of the embedding.
* A C++ `std::string` is a `List Char`; every `Char` stands for one `char`
  (one byte, the `Char` of the same number).  `expr[i]` is `charAt expr i`; for
  `i = length` it is the terminating NUL, as `std::string::operator[]` gives.
* `isspace`, `isdigit`, `isalpha` are the "C" locale classifications; a byte
  above 127 is in none of the three classes.
* `double` and `std::stod` are not part of the repository: the number type is a
  type parameter `α` and its arithmetic and `stod` are the fields of `Arith α`.
* A thrown exception is the `Except.error` result.  Reading the inactive member
  of the union inside `NorS`, or a vector outside its bounds, has no defined
  result in C++; the embedding gives these the results `Err.inactiveMember` and
  `Err.outsideVector`.
* The counter `int length` of the stack is an `Int`: it counts live heap nodes.
  The `int` fields of a `PolyNode` hold what the user typed and what arithmetic
  made of it: every `int` operation of `cp.cpp` is followed by `wrapInt`; the
  division `INT_MIN / -1` is the outcome `Fault.divisionOverflow`.
* A `PolyNode*` is the list of the nodes reached through `next`, `NULL` the
  empty list; a read through `NULL` is the outcome `Fault.nullDereference`.
* A loop is a function by recursion on a bound of its number of iterations; the
  bound is the one the loop itself obeys (remaining input, nodes on the stack),
  and `scanWhile_append`, `tokenizeLoop_append_aux`, `validLoop_eq`,
  `applyWhile_fuel`, `mergeLoop_spec` and `subtractTerms_fuel` show that it is
  never what ends a loop.  The outer loop of `dividePolynomial` has no such
  bound; its result is an `Option`, `none` for a loop still running.
-/

namespace Shiyer

/-! ## Characters and strings -/

/-- A token, a `std::string`. -/
abbrev Token := List Char

/-- The call `isspace(c)` in the "C" locale: space, `\t`, `\n`, `\v`, `\f`, `\r`. -/
def isspace (c : Char) : Bool := c.toNat == 32 || (9 ≤ c.toNat && c.toNat ≤ 13)

/-- The call `isdigit(c)`: `'0'..'9'`. -/
def isdigit (c : Char) : Bool := 48 ≤ c.toNat && c.toNat ≤ 57

/-- The call `isalpha(c)` in the "C" locale: `'A'..'Z'` and `'a'..'z'`. -/
def isalpha (c : Char) : Bool :=
  (65 ≤ c.toNat && c.toNat ≤ 90) || (97 ≤ c.toNat && c.toNat ≤ 122)

/-- The expression `s[i]` of a `std::string`: the terminating NUL at `i = s.length()`. -/
def charAt (s : List Char) (i : Nat) : Char := s.getD i (Char.ofNat 0)

/-- The call `s.substr(pos, n)` for `pos ≤ s.length()`. -/
def substr (s : List Char) (pos n : Nat) : List Char := (s.drop pos).take n

/-! ## Errors -/

/-- The two exceptions `std::stod` can throw. -/
inductive StodErr
  | invalidArgument
  | outOfRange
  deriving DecidableEq, Repr

/-- Exceptional outcomes of the program. -/
inductive Err
  /-- The exception `runtime_error("Stack is empty")`, thrown by `pop` and `gettop`. -/
  | stackEmpty
  /-- The exception `runtime_error("Unknown variable: " + token)`. -/
  | unknownVariable (token : Token)
  /-- The exception `runtime_error("Mismatched parentheses")`. -/
  | mismatchedParentheses
  /-- An exception of `std::stod` (not a `runtime_error`). -/
  | stodFailed (e : StodErr)
  /-- A read of the inactive member of the union of `NorS`: no defined result. -/
  | inactiveMember
  /-- A read `tokens[k]` with `k` outside the vector: no defined result. -/
  | outsideVector
  deriving DecidableEq, Repr

deriving instance DecidableEq for Except

/-- Whether the exception is a `std::runtime_error` (what `main` catches). -/
def Err.isRuntimeError : Err → Bool
  | .stackEmpty => true
  | .unknownVariable _ => true
  | .mismatchedParentheses => true
  | .stodFailed _ => false
  | .inactiveMember => false
  | .outsideVector => false

/-! ## The number type -/

/-- The number type `double` with the operations the evaluator uses. -/
structure Arith (α : Type) where
  /-- The sum `a + b`. -/
  add : α → α → α
  /-- The difference `a - b`. -/
  sub : α → α → α
  /-- The product `a * b`. -/
  mul : α → α → α
  /-- The quotient `a / b`. -/
  div : α → α → α
  /-- The constant `0.0`. -/
  zero : α
  /-- The call `stod(token)`. -/
  stod : Token → Except StodErr α

/-! ## NorS -/

/-- The class `NorS`: a number or a symbol, with the flag `isNumber`. -/
inductive NorS (α : Type) where
  /-- The constructor `NorS(double num)`. -/
  | num (d : α)
  /-- The constructor `NorS(char sym)`. -/
  | sym (c : Char)
  deriving DecidableEq, Repr

/-- The member function `NorS::isNum`. -/
def NorS.isNum {α : Type} : NorS α → Bool
  | .num _ => true
  | .sym _ => false

/-- The member function `NorS::getNum`: returns `value.number` without looking at the flag. -/
def NorS.getNum {α : Type} : NorS α → Except Err α
  | .num d => .ok d
  | .sym _ => .error .inactiveMember

/-- The member function `NorS::getSym`: returns `value.symbol` without looking at the flag. -/
def NorS.getSym {α : Type} : NorS α → Except Err Char
  | .num _ => .error .inactiveMember
  | .sym c => .ok c

/-! ## stack -/

/-- The class `stack`: the chain of nodes from `topNode` and the counter `length`. -/
structure stack (α : Type) where
  /-- The values of the nodes reached from `topNode`, top first (`[]` is `nullptr`). -/
  topNode : List (NorS α)
  /-- The field `length`. -/
  length : Int
  deriving DecidableEq, Repr

/-- The constructor `stack::stack()`. -/
def stack.new {α : Type} : stack α := ⟨[], 0⟩

/-- The member function `stack::empty`. -/
def stack.empty {α : Type} (s : stack α) : Bool := s.topNode.isEmpty

/-- The member function `stack::push`. -/
def stack.push {α : Type} (s : stack α) (c : NorS α) : stack α :=
  ⟨c :: s.topNode, s.length + 1⟩

/-- The member function `stack::pop`: the returned value and the stack afterwards, or the exception
(the stack is then as it was). -/
def stack.pop {α : Type} (s : stack α) : Except Err (NorS α × stack α) :=
  match s.topNode with
  | [] => .error .stackEmpty
  | topValue :: next => .ok (topValue, ⟨next, s.length - 1⟩)

/-- The member function `stack::gettop`. -/
def stack.gettop {α : Type} (s : stack α) : Except Err (NorS α) :=
  match s.topNode with
  | [] => .error .stackEmpty
  | topValue :: _ => .ok topValue

/-- The member function `stack::getsize`. -/
def stack.getsize {α : Type} (s : stack α) : Int := s.length

/-- The loop `while (!empty()) pop();` of `stack::init`, at most `fuel` iterations. -/
def stack.initLoop {α : Type} : Nat → stack α → stack α
  | 0, s => s
  | fuel + 1, s =>
    if !s.empty then
      match s.pop with
      | .ok (_, s') => stack.initLoop fuel s'
      | .error _ => s
    else s

/-- The member function `stack::init`: one iteration per node suffices. -/
def stack.init {α : Type} (s : stack α) : stack α := stack.initLoop s.topNode.length s

/-! ## Tokenizer -/

/-- The inner loop `while (j < expr.length() && p(expr[j])) ++j;`, at most `fuel`
iterations; the value of `j` after the loop. -/
def scanWhile (p : Char → Bool) (expr : List Char) : Nat → Nat → Nat
  | 0, j => j
  | fuel + 1, j =>
    if j < expr.length && p (charAt expr j) then scanWhile p expr fuel (j + 1) else j

/-- The `for` loop of `tokenize` from index `i`, at most `fuel` iterations. -/
def tokenizeLoop (expr : List Char) : Nat → Nat → List Token → List Token
  | 0, _, tokens => tokens
  | fuel + 1, i, tokens =>
    if i < expr.length then
      if isspace (charAt expr i) then tokenizeLoop expr fuel (i + 1) tokens
      else if isdigit (charAt expr i) ||
          (charAt expr i == '.' && i + 1 < expr.length && isdigit (charAt expr (i + 1))) then
        let j := scanWhile (fun c => isdigit c || c == '.') expr expr.length i
        tokenizeLoop expr fuel (j - 1 + 1) (tokens ++ [substr expr i (j - i)])
      else if isalpha (charAt expr i) then
        let j := scanWhile isalpha expr expr.length i
        tokenizeLoop expr fuel (j - 1 + 1) (tokens ++ [substr expr i (j - i)])
      else tokenizeLoop expr fuel (i + 1) (tokens ++ [[charAt expr i]])
    else tokens

/-- The function `tokenize`: every iteration advances `i`, so `expr.length()` iterations suffice. -/
def tokenize (expr : List Char) : List Token := tokenizeLoop expr expr.length 0 []

/-! ## Validator -/

/-- The function `is_operator`. -/
def is_operator (token : Token) : Bool :=
  token == ['+'] || token == ['-'] || token == ['*'] || token == ['/']

/-- The function `is_unary_minus`. -/
def is_unary_minus (token : Token) : Bool := token == ['-']

/-- The function `is_invalid_token`. -/
def is_invalid_token (token : Token) : Bool :=
  token == ['@'] || token == ['+', '+'] || token == ['-', '-']

/-- The expression `tokens[i]` of a `std::vector`: defined only for `i < tokens.size()`. -/
def vecAt (tokens : List Token) (i : Nat) : Except Err Token :=
  match tokens.get? i with
  | some token => .ok token
  | none => .error .outsideVector

/-- The condition `i == 0 || i == tokens.size() - 1 || is_operator(tokens[i - 1]) ||
is_operator(tokens[i + 1])`, evaluated left to right with short circuit. -/
def operatorMisplaced (tokens : List Token) (i : Nat) : Except Err Bool :=
  if i == 0 then pure true
  else if i == tokens.length - 1 then pure true
  else do
    let prev ← vecAt tokens (i - 1)
    if is_operator prev then pure true
    else do
      let next ← vecAt tokens (i + 1)
      pure (is_operator next)

/-- The condition `i == 0 || is_operator(tokens[i - 1]) || tokens[i - 1] == "("`. -/
def unaryPosition (tokens : List Token) (i : Nat) : Except Err Bool :=
  if i == 0 then pure true
  else do
    let prev ← vecAt tokens (i - 1)
    pure (is_operator prev || prev == ['('])

/-- What the last three branches of the loop body decide for `token = tokens[i]`:
`some false` is `return false`, `none` is going on with the next token. -/
def operatorBranches (tokens : List Token) (i : Nat) (token : Token) :
    Except Err (Option Bool) := do
  -- `is_operator(token) && (...)`
  let misplaced ← if is_operator token then operatorMisplaced tokens i else pure false
  if misplaced then pure (some false)
  else do
    -- `is_unary_minus(token) && (...)`
    let unary ← if is_unary_minus token then unaryPosition tokens i else pure false
    if unary then pure none
    else if is_invalid_token token then pure (some false)
    else pure none

/-- The `for` loop of `is_valid_expression` from index `i` with the stack
`parentheses`, followed by `return parentheses.empty()`; at most `fuel` iterations. -/
def validLoop (α : Type) (tokens : List Token) : Nat → Nat → stack α → Except Err Bool
  | 0, _, parentheses => pure parentheses.empty
  | fuel + 1, i, parentheses =>
    if i < tokens.length then do
      let token ← vecAt tokens i
      if token == ['('] then
        validLoop α tokens fuel (i + 1) (parentheses.push (.sym '('))
      else if token == [')'] then
        if parentheses.empty then pure false
        else do
          let (_, parentheses) ← parentheses.pop
          validLoop α tokens fuel (i + 1) parentheses
      else do
        match (← operatorBranches tokens i token) with
        | some b => pure b
        | none => validLoop α tokens fuel (i + 1) parentheses
    else pure parentheses.empty

/-- The function `is_valid_expression`: the loop runs `tokens.size()` times. -/
def is_valid_expression (α : Type) (tokens : List Token) : Except Err Bool :=
  validLoop α tokens tokens.length 0 stack.new

/-! ## Evaluator -/

/-- The function `precedence`. -/
def precedence (op : Char) : Int :=
  if op == '+' || op == '-' then 1
  else if op == '*' || op == '/' then 2
  else 0

/-- The `switch (op)` of the evaluator: pushes the result for `+ - * /`, and
does nothing for any other character (there is no `default`). -/
def applySwitch {α : Type} (A : Arith α) (op : Char) (a b : α) (values : stack α) : stack α :=
  if op == '+' then values.push (.num (A.add a b))
  else if op == '-' then values.push (.num (A.sub a b))
  else if op == '*' then values.push (.num (A.mul a b))
  else if op == '/' then values.push (.num (A.div a b))
  else values

/-- The block repeated in the three loops of the evaluator:
`op = operators.pop().getSym(); b = values.pop().getNum(); a = values.pop().getNum();
switch (op) ...`. -/
def applyTop {α : Type} (A : Arith α) (values operators : stack α) :
    Except Err (stack α × stack α) := do
  let (opv, operators) ← operators.pop
  let op ← opv.getSym
  let (bv, values) ← values.pop
  let b ← bv.getNum
  let (av, values) ← values.pop
  let a ← av.getNum
  pure (applySwitch A op a b values, operators)

/-- The loop `while (!operators.empty() && cond) apply`, at most `fuel` iterations;
`cond` is evaluated on the operator stack only when it is not empty. -/
def applyWhile {α : Type} (A : Arith α) (cond : stack α → Except Err Bool) :
    Nat → stack α → stack α → Except Err (stack α × stack α)
  | 0, values, operators => .ok (values, operators)
  | fuel + 1, values, operators =>
    if !operators.empty then do
      if (← cond operators) then do
        let (values, operators) ← applyTop A values operators
        applyWhile A cond fuel values operators
      else pure (values, operators)
    else pure (values, operators)

/-- The condition `operators.gettop().getSym() != '('`. -/
def topNotParen {α : Type} (operators : stack α) : Except Err Bool := do
  let top ← operators.gettop
  let c ← top.getSym
  pure (c != '(')

/-- The condition `precedence(operators.gettop().getSym()) >= precedence(token[0])`. -/
def topPrecGe {α : Type} (token : Token) (operators : stack α) : Except Err Bool := do
  let top ← operators.gettop
  let c ← top.getSym
  pure (decide (precedence c ≥ precedence (charAt token 0)))

/-- The body of the `for` loop of `evaluate_expression` for one token.  Every
iteration of an inner loop pops one operator, so the number of nodes of
`operators` bounds the iterations. -/
def evalToken {α : Type} (A : Arith α) (values operators : stack α) (token : Token) :
    Except Err (stack α × stack α) :=
  if isdigit (charAt token 0) || (charAt token 0 == '-' && decide (token.length > 1)) then
    match A.stod token with
    | .ok d => .ok (values.push (.num d), operators)
    | .error e => .error (.stodFailed e)
  else if isalpha (charAt token 0) then
    if token == ['x'] then .ok (values.push (.num A.zero), operators)
    else if token == ['y'] then .ok (values.push (.num A.zero), operators)
    else .error (.unknownVariable token)
  else if token == ['('] then .ok (values, operators.push (.sym '('))
  else if token == [')'] then do
    let (values, operators) ← applyWhile A topNotParen operators.topNode.length values operators
    if operators.empty then throw .mismatchedParentheses
    let (_, operators) ← operators.pop
    pure (values, operators)
  else do
    let (values, operators) ←
      applyWhile A (topPrecGe token) operators.topNode.length values operators
    pure (values, operators.push (.sym (charAt token 0)))

/-- The `for (const auto& token : tokens)` loop of `evaluate_expression`. -/
def evalTokens {α : Type} (A : Arith α) :
    List Token → stack α → stack α → Except Err (stack α × stack α)
  | [], values, operators => .ok (values, operators)
  | token :: rest, values, operators => do
    let (values, operators) ← evalToken A values operators token
    evalTokens A rest values operators

/-- The last loop `while (!operators.empty()) apply`. -/
def drain {α : Type} (A : Arith α) (values operators : stack α) :
    Except Err (stack α × stack α) :=
  applyWhile A (fun _ => .ok true) operators.topNode.length values operators

/-- The function `evaluate_expression`. -/
def evaluate_expression {α : Type} (A : Arith α) (tokens : List Token) : Except Err α := do
  let (values, operators) ← evalTokens A tokens stack.new stack.new
  let (values, _) ← drain A values operators
  let (v, _) ← values.pop
  v.getNum

/-! ## main -/

/-- The string `main` assigns to `expr`; the dash between `2` and `1` is U+2013,
three bytes `E2 80 93` in the source file. -/
def mainExpr : List Char := "3 + 4 * (2 \xE2\x80\x93 1)+".toList

/-- What a run of `main` with `expr` writes to `cout`, one entry per line
(`print` is `cout << result`); `.error e` is termination by the exception `e`,
which `main` does not catch, nothing having been printed. -/
def mainOn {α : Type} (A : Arith α) (print : α → List Char) (expr : List Char) :
    Except Err (List (List Char)) := do
  let tokens := tokenize expr
  if !(← is_valid_expression α tokens) then
    pure ["False".toList]
  else
    match evaluate_expression A tokens with
    | .ok result =>
      pure ["True".toList, print result ++ "+x+0*y".toList, print result ++ "+x".toList]
    | .error e => if e.isRuntimeError then pure ["False".toList] else throw e

/-- The function `main`. -/
def main {α : Type} (A : Arith α) (print : α → List Char) : Except Err (List (List Char)) :=
  mainOn A print mainExpr

/-! ## Sequences of stack calls -/

/-- The calls `push(v1); ...; push(vn)` in this order. -/
def pushAll {α : Type} (s : stack α) : List (NorS α) → stack α
  | [] => s
  | v :: vs => pushAll (s.push v) vs

/-- The call `pop()` made `n` times: the values returned, in the order of the
calls, and the stack afterwards. -/
def popN {α : Type} : Nat → stack α → Except Err (List (NorS α) × stack α)
  | 0, s => .ok ([], s)
  | n + 1, s => do
    let (v, s) ← s.pop
    let (vs, s) ← popN n s
    pure (v :: vs, s)

/-- A call of a public member function of `stack`. -/
inductive StackOp (α : Type) where
  | push (c : NorS α)
  | pop
  | gettop
  | init

/-- The stack after a call; a `pop` that throws leaves the object as it was and
`gettop` is `const`. -/
def StackOp.after {α : Type} (s : stack α) : StackOp α → stack α
  | .push c => s.push c
  | .pop =>
    match s.pop with
    | .ok (_, s') => s'
    | .error _ => s
  | .gettop => s
  | .init => s.init

/-- The stack after a sequence of calls. -/
def runOps {α : Type} (s : stack α) : List (StackOp α) → stack α
  | [] => s
  | op :: ops => runOps (StackOp.after s op) ops

/-- The number of successful pushes minus successful pops since the last `init`
(or since the start, where the count is `count`), along a sequence of calls
made on `s`. -/
def netCount {α : Type} (s : stack α) (count : Int) : List (StackOp α) → Int
  | [] => count
  | .push c :: ops => netCount (s.push c) (count + 1) ops
  | .pop :: ops =>
    match s.pop with
    | .ok (_, s') => netCount s' (count - 1) ops
    | .error _ => netCount s count ops
  | .gettop :: ops => netCount s count ops
  | .init :: ops => netCount s.init 0 ops

/-- The invariant of the class: `length` counts the nodes. -/
def stack.counted {α : Type} (s : stack α) : Prop := s.length = s.topNode.length

/-! ## The validator as a function of the tokens -/

/-- Whether the token `token = tokens[i]`, not a parenthesis, makes the loop
body `return false`: an operator that is first, last or next to an operator, or
a disallowed token. -/
def rejects (tokens : List Token) (i : Nat) (token : Token) : Bool :=
  (is_operator token &&
    (i == 0 || i == tokens.length - 1 || is_operator (tokens.getD (i - 1) []) ||
      is_operator (tokens.getD (i + 1) []))) ||
  is_invalid_token token

/-- The verdict on the tokens `rest = tokens[i..]` with `depth` parentheses open. -/
def okFrom (tokens : List Token) : Nat → List Token → Nat → Bool
  | _, [], depth => depth == 0
  | i, token :: rest, depth =>
    if token == ['('] then okFrom tokens (i + 1) rest (depth + 1)
    else if token == [')'] then depth != 0 && okFrom tokens (i + 1) rest (depth - 1)
    else !rejects tokens i token && okFrom tokens (i + 1) rest depth

/-- Unbalanced parentheses: some prefix has more `")"` than `"("` tokens, or
the totals differ. -/
def Unbalanced (tokens : List Token) : Prop :=
  (∃ k, (tokens.take k).count ['('] < (tokens.take k).count [')']) ∨
    tokens.count ['('] ≠ tokens.count [')']

/-- An identifier token: a non-empty string of alphabetic characters. -/
def isIdentifier (token : Token) : Bool := !token.isEmpty && token.all isalpha

/-! ## One iteration of the tokenizer, on the rest of the input -/

/-- The characters a numeric token is made of: digits and `'.'`. -/
def numChar (c : Char) : Bool := isdigit c || c == '.'

/-- What one iteration of the loop of `tokenize` does when `rest` is the input
from index `i` on: the tokens appended (none or one) and the number of characters
consumed. -/
def tokStep (rest : List Char) : List Token × Nat :=
  if isspace (charAt rest 0) then ([], 1)
  else if isdigit (charAt rest 0) || (charAt rest 0 == '.' && isdigit (charAt rest 1)) then
    ([rest.takeWhile numChar], (rest.takeWhile numChar).length)
  else if isalpha (charAt rest 0) then
    ([rest.takeWhile isalpha], (rest.takeWhile isalpha).length)
  else ([[charAt rest 0]], 1)

/-- A non-empty string of digits. -/
def isDigitString (d : List Char) : Bool := !d.isEmpty && d.all isdigit

/-! ## Infix expressions -/

/-- The four binary operators. -/
inductive BinOp
  | add
  | sub
  | mul
  | div
  deriving DecidableEq, Repr

/-- The character of an operator. -/
def BinOp.char : BinOp → Char
  | .add => '+'
  | .sub => '-'
  | .mul => '*'
  | .div => '/'

/-- The arithmetic of an operator, operands in the order left, right. -/
def BinOp.apply {α : Type} (A : Arith α) : BinOp → α → α → α
  | .add => A.add
  | .sub => A.sub
  | .mul => A.mul
  | .div => A.div

/-- A number literal without sign: digits and `'.'`, the first character a digit. -/
def isNumberLiteral (n : Token) : Bool := isdigit (charAt n 0) && n.all numChar

/-- The syntax tree of an infix expression, with the white space of the text:
`lit n ws` is the literal `n` followed by `ws`; `paren ws1 e ws2` is
`"(" ws1 e ")" ws2`; `bin op ws l r` is `l op ws r`. -/
inductive Expr
  | lit (n : Token) (ws : List Char)
  | paren (ws1 : List Char) (e : Expr) (ws2 : List Char)
  | bin (op : BinOp) (ws : List Char) (l r : Expr)
  deriving Repr

/-- The text of an expression. -/
def Expr.render : Expr → List Char
  | .lit n ws => n ++ ws
  | .paren ws1 e ws2 => '(' :: ws1 ++ e.render ++ ')' :: ws2
  | .bin op ws l r => l.render ++ op.char :: ws ++ r.render

/-- The tokens of an expression. -/
def Expr.toks : Expr → List Token
  | .lit n _ => [n]
  | .paren _ e _ => ['('] :: e.toks ++ [[')']]
  | .bin op _ l r => l.toks ++ [op.char] :: r.toks

/-- The literals are number literals and the white space is white space. -/
def Expr.lexOk : Expr → Bool
  | .lit n ws => isNumberLiteral n && ws.all isspace
  | .paren ws1 e ws2 => ws1.all isspace && e.lexOk && ws2.all isspace
  | .bin _ ws l r => ws.all isspace && l.lexOk && r.lexOk

/-- The level of an operator in the standard reading of an infix expression:
1 for `+` and `-`, 2 for `*` and `/`, which bind tighter. -/
def BinOp.level : BinOp → Int
  | .add => 1
  | .sub => 1
  | .mul => 2
  | .div => 2

/-- The tree is the standard reading of its own text where an operand of level
at least `p` is expected: the left operand of an operator binds at least as
tightly as the operator and the right operand strictly tighter (`*`, `/` before
`+`, `-`; equal levels group to the left); a parenthesis starts afresh. -/
def Expr.binds : Expr → Int → Bool
  | .lit _ _, _ => true
  | .paren _ e _, _ => e.binds 1
  | .bin op _ l r, p =>
    decide (p ≤ op.level) && l.binds op.level && r.binds (op.level + 1)

/-- The value of the tree in the arithmetic `A`, a literal having the value
`stod` gives it; `none` when `stod` throws on a literal. -/
def Expr.value {α : Type} (A : Arith α) : Expr → Option α
  | .lit n _ =>
    match A.stod n with
    | .ok d => some d
    | .error _ => none
  | .paren _ e _ => e.value A
  | .bin op _ l r =>
    match l.value A, r.value A with
    | some a, some b => some (op.apply A a b)
    | _, _ => none

/-- The exception of the first literal of the tree, in the order of the text, on
which `stod` throws; `none` when `stod` returns a number for every literal. -/
def Expr.refused {α : Type} (A : Arith α) : Expr → Option StodErr
  | .lit n _ =>
    match A.stod n with
    | .ok _ => none
    | .error err => some err
  | .paren _ e _ => e.refused A
  | .bin _ _ l r =>
    match l.refused A with
    | some err => some err
    | none => r.refused A

/-- A fully parenthesized expression: `E ::= n | ( E op E )`. -/
inductive FPExpr
  | num (n : Token)
  | node (op : BinOp) (l r : FPExpr)
  deriving Repr

/-- The text of a fully parenthesized expression, with the white space `sp`
between neighbouring tokens. -/
def FPExpr.render (sp : List Char) : FPExpr → List Char
  | .num n => n
  | .node op l r =>
    '(' :: sp ++ l.render sp ++ sp ++ op.char :: sp ++ r.render sp ++ sp ++ [')']

/-- Every literal is a non-empty string of digits. -/
def FPExpr.digitLiterals : FPExpr → Bool
  | .num n => isDigitString n
  | .node _ l r => l.digitLiterals && r.digitLiterals

/-- The value of the tree in the arithmetic `A`. -/
def FPExpr.value {α : Type} (A : Arith α) : FPExpr → Option α
  | .num n =>
    match A.stod n with
    | .ok d => some d
    | .error _ => none
  | .node op l r =>
    match l.value A, r.value A with
    | some a, some b => some (op.apply A a b)
    | _, _ => none

/-- The exception of the first literal of the tree, in the order of the text, on
which `stod` throws; `none` when `stod` returns a number for every literal. -/
def FPExpr.refused {α : Type} (A : Arith α) : FPExpr → Option StodErr
  | .num n =>
    match A.stod n with
    | .ok _ => none
    | .error err => some err
  | .node _ l r =>
    match l.refused A with
    | some err => some err
    | none => r.refused A

/-- A fully parenthesized expression as an `Expr`, followed by the white space `trail`. -/
def FPExpr.toExpr (sp : List Char) : FPExpr → List Char → Expr
  | .num n, trail => .lit n trail
  | .node op l r, trail => .paren sp (.bin op sp (l.toExpr sp sp) (r.toExpr sp sp)) trail

/-- The evaluator's stacks reduce: `Reduces A p values operators values' operators'`
when applying pending operators `+ - * /` of precedence at least `p`, top first,
leads from the first pair of stacks to the second. -/
inductive Reduces {α : Type} (A : Arith α) (p : Int) :
    stack α → stack α → stack α → stack α → Prop
  | refl (values operators : stack α) : Reduces A p values operators values operators
  | step (op : BinOp) (a b : α) (values operators values' operators' : stack α) :
      p ≤ precedence op.char →
      Reduces A p (values.push (.num (op.apply A a b))) operators values' operators' →
      Reduces A p ((values.push (.num a)).push (.num b)) (operators.push (.sym op.char))
        values' operators'

/-- The top of the operator stack does not get applied by an operator of
precedence `p`: the stack is empty or its top is a symbol of smaller precedence. -/
def Blocked {α : Type} (p : Int) (operators : stack α) : Prop :=
  operators.topNode = [] ∨
    ∃ c rest, operators.topNode = .sym c :: rest ∧ precedence c < p

/-- The number a digit string denotes. -/
def digitsValue (s : List Char) : Nat := s.foldl (fun n c => 10 * n + (c.toNat - 48)) 0

/-- The least integer `std::stod` does not convert: `DBL_MAX` plus half a unit in
its last place, `2 ^ 1024 - 2 ^ 970`, from which on the value rounds out of the
range of `double`. -/
def doubleOverflow : Nat := (2 ^ 54 - 1) * (2 ^ 194) ^ 5

/-- An instance of `Arith` on the integers, on which the definitions can be
evaluated.  It is not `double`: it agrees with `double` arithmetic where that is
exact on integers, which is where it is used (literals of small integer value,
sums, differences, products and quotients without remainder of small integers,
and literals beyond the range of `double`).  Its `stod` reads an optional minus
sign and the digits up to the first non-digit, throws `invalid_argument` when
there is no digit and `out_of_range` when the digits denote `doubleOverflow` or
more, as `std::stod` does; a fraction after the digits is not read and nothing is
rounded.  The quotient is the integer quotient. -/
def intArith : Arith Int where
  add := fun a b => a + b
  sub := fun a b => a - b
  mul := fun a b => a * b
  div := fun a b => a / b
  zero := 0
  stod := fun token =>
    if ((if charAt token 0 == '-' then token.drop 1 else token).takeWhile isdigit).isEmpty then
      .error .invalidArgument
    else if doubleOverflow ≤
        digitsValue ((if charAt token 0 == '-' then token.drop 1 else token).takeWhile isdigit) then
      .error .outOfRange
    else if charAt token 0 == '-' then
      .ok (-(digitsValue ((token.drop 1).takeWhile isdigit) : Int))
    else .ok (digitsValue (token.takeWhile isdigit))

/-- The digit string of `10 ^ 309`, a number beyond the range of `double`. -/
def longLiteral : Token := '1' :: List.replicate 309 '0'

/-! ## Exceptions and undefined reads -/

/-- Whether the outcome is a C++ exception thrown by the program or by `stod`;
the other two outcomes are reads that no `throw` statement guards and whose
result the language leaves undefined. -/
def Err.isException : Err → Bool
  | .stackEmpty => true
  | .unknownVariable _ => true
  | .mismatchedParentheses => true
  | .stodFailed _ => true
  | .inactiveMember => false
  | .outsideVector => false

/-! ## Tags on the stacks -/

/-- Every element of the stack is number-tagged. -/
def numbersOnly {α : Type} (s : stack α) : Prop := ∀ x ∈ s.topNode, x.isNum = true

/-- Every element of the stack is symbol-tagged. -/
def symbolsOnly {α : Type} (s : stack α) : Prop := ∀ x ∈ s.topNode, x.isNum = false

/-- The two stacks of `evaluate_expression` after the token loop and the last
loop, before `return values.pop().getNum()`. -/
def finalStacks {α : Type} (A : Arith α) (tokens : List Token) :
    Except Err (stack α × stack α) := do
  let (values, operators) ← evalTokens A tokens stack.new stack.new
  drain A values operators

/-- The values the variable `parentheses` of `is_valid_expression` takes: at the
head of every iteration of the loop and at the final `return`, following
`validLoop` step by step. -/
def validStacks (α : Type) (tokens : List Token) : Nat → Nat → stack α → List (stack α)
  | 0, _, parentheses => [parentheses]
  | fuel + 1, i, parentheses =>
    parentheses ::
      (if i < tokens.length then
        match vecAt tokens i with
        | .error _ => []
        | .ok token =>
          if token == ['('] then
            validStacks α tokens fuel (i + 1) (parentheses.push (.sym '('))
          else if token == [')'] then
            if parentheses.empty then []
            else
              match parentheses.pop with
              | .ok (_, parentheses') => validStacks α tokens fuel (i + 1) parentheses'
              | .error _ => []
          else
            match operatorBranches tokens i token with
            | .ok none => validStacks α tokens fuel (i + 1) parentheses
            | _ => []
      else [])

/-- A loop condition of the evaluator reads the top symbol and nothing else. -/
def condReadsSymbol {α : Type} (cond : stack α → Except Err Bool) : Prop :=
  ∀ operators : stack α, symbolsOnly operators → operators.topNode ≠ [] →
    ∃ b, cond operators = .ok b

/-- The shapes of the tokens `tokenize` produces: not empty, free of white space,
and a run of digits and `'.'`, or a run of alphabetic characters, or one
character that is neither. -/
def WellShaped (t : Token) : Prop :=
  t ≠ [] ∧ (∀ c ∈ t, isspace c = false) ∧
    (t.all numChar = true ∨ t.all isalpha = true ∨
      ∃ c, t = [c] ∧ numChar c = false ∧ isalpha c = false)

/-! ## Parenthesis markers on the operator stack -/

/-- The element is the marker `NorS('(')`. -/
def NorS.isParen {α : Type} : NorS α → Bool
  | .num _ => false
  | .sym c => c == '('

/-- The number of markers `'('` on the stack. -/
def parenCount {α : Type} (s : stack α) : Nat := s.topNode.countP NorS.isParen

/-- No token other than `"("` itself begins with `'('`. -/
def PlainParens (tokens : List Token) : Prop :=
  ∀ t ∈ tokens, charAt t 0 = '(' → t = ['(']

/-! ## Polynomial calculator (`cp.cpp`) -/

/-- The value an arithmetic result has once stored in an `int`: 32 bits, two's
complement. -/
def wrapInt (x : Int) : Int := (x + 2147483648) % 4294967296 - 2147483648

/-- The fields `coef` and `exp` of a `PolyNode`.  The field `next` is the
position of the node in a list: a `PolyNode*` is the list of the nodes reached
from it through `next`, the empty list being `NULL`; a polynomial behind a dummy
head is the head node followed by its terms. -/
structure PolyNode where
  /-- The coefficient. -/
  coef : Int
  /-- The exponent. -/
  exp : Int
  deriving DecidableEq, Repr

/-- What ends a run of the calculator other than a return. -/
inductive Fault
  /-- A read through a null pointer, as in `p->next->coef` with `p->next == NULL`. -/
  | nullDereference
  /-- An `int` division by zero. -/
  | divisionByZero
  /-- The `int` division `INT_MIN / -1`, whose quotient is no `int`. -/
  | divisionOverflow
  deriving DecidableEq, Repr

/-- The inner loop `while (p2 != NULL)` of `multiplyPolynomial` for one node `p1`:
the nodes it appends. -/
def productRow (p1 : PolyNode) : List PolyNode → List PolyNode
  | [] => []
  | p2 :: rest =>
    ⟨wrapInt (p1.coef * p2.coef), wrapInt (p1.exp + p2.exp)⟩ :: productRow p1 rest

/-- The outer loop `while (p1 != NULL)` of `multiplyPolynomial`: the list built
before like terms are merged. -/
def productTerms : List PolyNode → List PolyNode → List PolyNode
  | [], _ => []
  | p1 :: rest, terms2 => productRow p1 terms2 ++ productTerms rest terms2

/-- The inner loop `while (next != NULL)` of the merge: from the coefficient of
`current` and the list after it, the coefficient of `current` and the list after it
when the loop ends. -/
def mergeScan (exp : Int) : Int → List PolyNode → Int × List PolyNode
  | coef, [] => (coef, [])
  | coef, next :: rest =>
    if exp == next.exp then mergeScan exp (wrapInt (coef + next.coef)) rest
    else ((mergeScan exp coef rest).1, next :: (mergeScan exp coef rest).2)

/-- The outer loop `while (current != NULL)` of the merge, from the node
`current` on; at most `fuel` iterations. -/
def mergeLoop : Nat → List PolyNode → List PolyNode
  | 0, l => l
  | _ + 1, [] => []
  | fuel + 1, current :: next =>
    ⟨(mergeScan current.exp current.coef next).1, current.exp⟩ ::
      mergeLoop fuel (mergeScan current.exp current.coef next).2

/-- The merge of like terms that ends `addPolynomial`, `subtractPolynomial` and
`multiplyPolynomial`, started at the node `current`; the loop makes one iteration
per node left in the list. -/
def mergeLikeTerms (l : List PolyNode) : List PolyNode := mergeLoop l.length l

/-- The function `multiplyPolynomial`; the result has no dummy head. -/
def multiplyPolynomial (poly1 poly2 : List PolyNode) : List PolyNode :=
  match poly1, poly2 with
  | [], _ => []
  | _, [] => []
  | _ :: terms1, _ :: terms2 => mergeLikeTerms (productTerms terms1 terms2)

/-- The three loops of `subtractPolynomial` that build the list behind `result`
from `p1` and `p2`; at most `fuel` iterations of the first loop. -/
def subtractTerms : Nat → List PolyNode → List PolyNode → List PolyNode
  | _, [], p2 => p2.map (fun n => ⟨wrapInt (-n.coef), n.exp⟩)
  | _, p1, [] => p1
  | 0, _, _ => []
  | fuel + 1, n1 :: r1, n2 :: r2 =>
    if n1.exp > n2.exp then ⟨n1.coef, n1.exp⟩ :: subtractTerms fuel r1 (n2 :: r2)
    else if n1.exp < n2.exp then
      ⟨wrapInt (-n2.coef), n2.exp⟩ :: subtractTerms fuel (n1 :: r1) r2
    else ⟨wrapInt (n1.coef - n2.coef), n1.exp⟩ :: subtractTerms fuel r1 r2

/-- The function `subtractPolynomial`: the list from the node `result` on.
`fresh` is what `malloc` left in the fields of `result`, which the merge reads. -/
def subtractPolynomial (fresh : PolyNode) (poly1 poly2 : List PolyNode) :
    Except Fault (List PolyNode) :=
  match poly1, poly2 with
  | [], _ => .error .nullDereference
  | _, [] => .error .nullDereference
  | _ :: p1, _ :: p2 =>
    .ok (mergeLikeTerms (fresh :: subtractTerms (p1.length + p2.length) p1 p2))

/-- The loop `while (tempDivisor != NULL)` of `dividePolynomial`: the list behind
`tempResult` when the loop ends, from the node `tempDivisor` and the list built
so far. -/
def divisorProducts (newNode : PolyNode) : List PolyNode → List PolyNode →
    Except Fault (List PolyNode)
  | [], acc => .ok acc
  | _ :: next, acc =>
    match next with
    | [] => .error .nullDereference
    | t :: _ =>
      divisorProducts newNode next
        (acc ++ [⟨wrapInt (newNode.coef * t.coef), wrapInt (newNode.exp + t.exp)⟩])

/-- The outer loop of `dividePolynomial`, with the terms behind `dividend` and
behind `*quotient`; `divisor` is the list from the dummy head of `poly2` on.  The
result is the pair of the terms of the quotient and of the remainder; `none` is
a loop that has not ended after `fuel` iterations.  The division
`dividend->next->coef / divisor->next->coef` comes first in the body: it faults
when the divisor is 0, and when it is `INT_MIN / -1`, which the processor traps. -/
def divideLoop (fresh : Nat → PolyNode) (divisor : List PolyNode) :
    Nat → List PolyNode → List PolyNode →
      Option (Except Fault (List PolyNode × List PolyNode))
  | 0, _, _ => none
  | fuel + 1, terms, quotient =>
    match terms with
    | [] => some (.ok (quotient, terms))
    | d :: _ =>
      match divisor with
      | [] => some (.error .nullDereference)
      | [_] => some (.error .nullDereference)
      | _ :: v :: _ =>
        if d.exp ≥ v.exp then
          if v.coef == 0 then some (.error .divisionByZero)
          else if d.coef == -2147483648 && v.coef == -1 then some (.error .divisionOverflow)
          else
            match divisorProducts ⟨wrapInt (Int.tdiv d.coef v.coef), wrapInt (d.exp - v.exp)⟩
                divisor [] with
            | .error f => some (.error f)
            | .ok tempTerms =>
              match subtractPolynomial (fresh fuel) terms tempTerms with
              | .error f => some (.error f)
              | .ok difference =>
                divideLoop fresh divisor fuel difference.tail
                  (quotient ++ [⟨wrapInt (Int.tdiv d.coef v.coef), wrapInt (d.exp - v.exp)⟩])
        else some (.ok (quotient, terms))

/-- The function `dividePolynomial`: the terms behind `*quotient` and behind
`*remainder` on return. -/
def dividePolynomial (fresh : Nat → PolyNode) (fuel : Nat) (poly1 poly2 : List PolyNode) :
    Option (Except Fault (List PolyNode × List PolyNode)) :=
  match poly1 with
  | [] => some (.error .nullDereference)
  | _ :: terms => divideLoop fresh poly2 fuel terms []

/-- The coefficient of the exponent `e` in a list of terms: that of the first
node of exponent `e`, and 0 when there is none. -/
def coefficientAt (l : List PolyNode) (e : Int) : Int :=
  match l.find? (fun n => n.exp == e) with
  | some n => n.coef
  | none => 0

/-- The sum of the coefficients of the nodes of exponent `e`. -/
def sumAt (l : List PolyNode) (e : Int) : Int :=
  ((l.filter (fun n => n.exp == e)).map PolyNode.coef).sum

/-- The pairs of a term of the first and a term of the second list. -/
def termPairs (terms1 terms2 : List PolyNode) : List (PolyNode × PolyNode) :=
  terms1.flatMap (fun t1 => terms2.map (fun t2 => (t1, t2)))

/-- The sum of `t1.coef * t2.coef` over the pairs with `t1.exp + t2.exp = e`, in
the integers. -/
def pairSum (terms1 terms2 : List PolyNode) (e : Int) : Int :=
  (((termPairs terms1 terms2).filter (fun p => p.1.exp + p.2.exp == e)).map
    (fun p => p.1.coef * p.2.coef)).sum

/-- The sum of `t1.coef * t2.coef` over the pairs whose exponents add up to `e`
as `int` values. -/
def pairSumInt (terms1 terms2 : List PolyNode) (e : Int) : Int :=
  (((termPairs terms1 terms2).filter (fun p => wrapInt (p.1.exp + p.2.exp) == e)).map
    (fun p => p.1.coef * p.2.coef)).sum

/-- The integer is a value of type `int`. -/
def InRange (x : Int) : Prop := -2147483648 ≤ x ∧ x < 2147483648

/-! # Theorems -/

/-! ## stack -/

@[simp] theorem pop_push {α : Type} (s : stack α) (c : NorS α) :
    (s.push c).pop = .ok (c, s) := by
  cases s
  simp [stack.push, stack.pop]

@[simp] theorem gettop_push {α : Type} (s : stack α) (c : NorS α) :
    (s.push c).gettop = .ok c := rfl

@[simp] theorem empty_push {α : Type} (s : stack α) (c : NorS α) :
    (s.push c).empty = false := rfl

@[simp] theorem topNode_push {α : Type} (s : stack α) (c : NorS α) :
    (s.push c).topNode = c :: s.topNode := rfl

@[simp] theorem empty_new {α : Type} : (stack.new : stack α).empty = true := rfl

theorem pushAll_snoc {α : Type} (vs : List (NorS α)) (v : NorS α) (t : stack α) :
    pushAll t (vs ++ [v]) = (pushAll t vs).push v := by
  induction vs generalizing t with
  | nil => rfl
  | cons w ws ih => simpa [pushAll] using ih (t.push w)

theorem popN_pushAll {α : Type} (vs : List (NorS α)) (s : stack α) :
    popN vs.length (pushAll s vs) = .ok (vs.reverse, s) := by
  induction vs using List.reverseRecOn with
  | nil => rfl
  | append_singleton vs v ih =>
    rw [pushAll_snoc, List.length_append, List.length_singleton, popN, pop_push]
    simp [ih, bind, Except.bind, pure, Except.pure]

theorem initLoop_counted {α : Type} (n : Nat) (s : stack α)
    (hn : s.topNode.length = n) (hs : s.counted) : stack.initLoop n s = stack.new := by
  induction n generalizing s with
  | zero =>
    obtain ⟨nodes, len⟩ := s
    simp only [stack.counted] at hs
    simp only [List.length_eq_zero] at hn
    subst hn
    simp [stack.initLoop, stack.new, hs]
  | succ n ih =>
    obtain ⟨nodes, len⟩ := s
    cases nodes with
    | nil => simp at hn
    | cons v rest =>
      simp only [stack.initLoop, stack.empty, stack.pop, List.isEmpty_cons, Bool.not_false,
        if_true]
      apply ih
      · simpa using hn
      · simp only [stack.counted, List.length_cons] at hs ⊢
        omega

theorem init_counted {α : Type} (s : stack α) (hs : s.counted) : s.init = stack.new :=
  initLoop_counted _ s rfl hs

theorem counted_new {α : Type} : (stack.new : stack α).counted := rfl

theorem counted_push {α : Type} (s : stack α) (c : NorS α) (hs : s.counted) :
    (s.push c).counted := by
  simp only [stack.counted, stack.push, List.length_cons] at hs ⊢
  omega

theorem counted_after {α : Type} (s : stack α) (op : StackOp α) (hs : s.counted) :
    (StackOp.after s op).counted := by
  cases op with
  | push c => exact counted_push s c hs
  | pop =>
    obtain ⟨nodes, len⟩ := s
    cases nodes with
    | nil => exact hs
    | cons v rest =>
      simp only [stack.counted, StackOp.after, stack.pop, List.length_cons] at hs ⊢
      omega
  | gettop => exact hs
  | init => rw [StackOp.after, init_counted s hs]; exact counted_new

theorem counted_runOps {α : Type} (ops : List (StackOp α)) (s : stack α) (hs : s.counted) :
    (runOps s ops).counted := by
  induction ops generalizing s with
  | nil => exact hs
  | cons op ops ih => exact ih _ (counted_after s op hs)

theorem netCount_runOps {α : Type} (ops : List (StackOp α)) (s : stack α) (hs : s.counted) :
    netCount s s.length ops = (runOps s ops).length := by
  induction ops generalizing s with
  | nil => rfl
  | cons op ops ih =>
    cases op with
    | push c => exact ih _ (counted_push s c hs)
    | pop =>
      have h := ih _ (counted_after s .pop hs)
      obtain ⟨nodes, len⟩ := s
      cases nodes with
      | nil => exact h
      | cons v rest => exact h
    | gettop => exact ih _ hs
    | init =>
      have h := ih _ (counted_after s .init hs)
      simp only [StackOp.after, init_counted s hs] at h
      simpa [netCount, runOps, StackOp.after, init_counted s hs] using h

/-- C7: the stack is LIFO.  Pushing `v1, ..., vn` in order and then calling
`pop()` `n` times returns `vn, ..., v1`, the very values pushed, without an
exception, and leaves the stack with the contents and the size it had before the
pushes; in particular `push(v)` followed by `pop()` returns `v`. -/
theorem C7_stack_lifo {α : Type} (s : stack α) (vs : List (NorS α)) (v : NorS α) :
    popN vs.length (pushAll s vs) = .ok (vs.reverse, s) ∧
    (pushAll s vs).getsize = s.getsize + vs.length ∧
    (s.push v).pop = .ok (v, s) :=
  ⟨popN_pushAll vs s, by
    induction vs generalizing s with
    | nil => simp [pushAll]
    | cons w ws ih =>
      rw [pushAll, ih]
      simp only [stack.getsize, stack.push, List.length_cons]
      push_cast
      ring, pop_push s v⟩

/-- C8: on every stack reached from a new one, `pop()` and `gettop()` throw
"Stack is empty" exactly when the stack holds no element; after a failing call
the stack is empty and its size is 0; on a stack that holds an element `gettop()`
returns the value `pop()` returns and leaves contents and size as they were. -/
theorem C8_pop_gettop_empty {α : Type} (ops : List (StackOp α)) :
    ((runOps stack.new ops).pop = .error .stackEmpty ↔ (runOps stack.new ops).topNode = []) ∧
    ((runOps stack.new ops).gettop = .error .stackEmpty ↔
      (runOps stack.new ops).topNode = []) ∧
    ((runOps stack.new ops).topNode = [] →
      StackOp.after (runOps stack.new ops) .pop = runOps stack.new ops ∧
      (runOps stack.new ops).empty = true ∧ (runOps stack.new ops).getsize = 0) ∧
    ((runOps stack.new ops).topNode ≠ [] →
      ∃ v s', (runOps stack.new ops).pop = .ok (v, s') ∧
        (runOps stack.new ops).gettop = .ok v ∧
        StackOp.after (runOps stack.new ops) .gettop = runOps stack.new ops) := by
  have hc := counted_runOps ops (stack.new : stack α) counted_new
  generalize runOps stack.new ops = s at hc ⊢
  obtain ⟨nodes, len⟩ := s
  cases nodes with
  | nil =>
    simp only [stack.counted, List.length_nil] at hc
    simp [stack.pop, stack.gettop, StackOp.after, stack.empty, stack.getsize, hc]
  | cons v rest =>
    simp [stack.pop, stack.gettop, StackOp.after]

/-- C9: in every state reached from a newly constructed stack by `push`, `pop`
(throwing or not), `gettop` and `init` calls, `getsize()` is the number of
elements held, which is the number of successful pushes minus successful pops
since construction or the last `init`; it is not negative; and `empty()` holds
exactly when `getsize()` is 0. -/
theorem C9_size_invariant {α : Type} (ops : List (StackOp α)) :
    (runOps stack.new ops).getsize = ((runOps stack.new ops).topNode.length : Int) ∧
    (runOps stack.new ops).getsize = netCount (stack.new : stack α) 0 ops ∧
    0 ≤ (runOps stack.new ops).getsize ∧
    ((runOps stack.new ops).empty = true ↔ (runOps stack.new ops).getsize = 0) := by
  have hc := counted_runOps ops (stack.new : stack α) counted_new
  have hn := netCount_runOps ops (stack.new : stack α) counted_new
  simp only [stack.counted] at hc
  refine ⟨hc, hn.symm, ?_, ?_⟩
  · simp only [stack.getsize, hc]
    exact Int.natCast_nonneg _
  · simp only [stack.getsize, hc, stack.empty, List.isEmpty_iff]
    constructor
    · intro h; simp [h]
    · intro h
      exact List.length_eq_zero.mp (by exact_mod_cast h)

/-! ## Validator -/

theorem vecAt_lt (tokens : List Token) (i : Nat) (h : i < tokens.length) :
    vecAt tokens i = .ok (tokens.getD i []) := by
  simp [vecAt, List.getD, List.getElem?_eq_getElem h]

theorem is_unary_minus_eq (token : Token) :
    is_unary_minus token = true → is_operator token = true ∧ is_invalid_token token = false := by
  intro h
  have ht : token = ['-'] := by simpa [is_unary_minus] using h
  subst ht
  decide

theorem operatorBranches_eq (tokens : List Token) (i : Nat) (token : Token)
    (h : i < tokens.length) :
    operatorBranches tokens i token =
      .ok (if rejects tokens i token then some false else none) := by
  have hu := is_unary_minus_eq token
  unfold operatorBranches operatorMisplaced unaryPosition rejects
  by_cases h0 : i = 0
  · subst h0
    cases hop : is_operator token <;> cases hm : is_unary_minus token <;>
      cases hv : is_invalid_token token <;>
      simp_all [bind, Except.bind, pure, Except.pure]
  · by_cases hl : i = tokens.length - 1
    · rw [vecAt_lt _ _ (show i - 1 < tokens.length by omega)]
      generalize tokens.getD (i - 1) [] = prev
      generalize tokens.getD (i + 1) [] = next
      cases hop : is_operator token <;> cases hm : is_unary_minus token <;>
        cases hv : is_invalid_token token <;>
        simp_all [bind, Except.bind, pure, Except.pure]
    · rw [vecAt_lt _ _ (show i - 1 < tokens.length by omega),
        vecAt_lt _ _ (show i + 1 < tokens.length by omega)]
      generalize tokens.getD (i - 1) [] = prev
      generalize tokens.getD (i + 1) [] = next
      cases hop : is_operator token <;> cases hm : is_unary_minus token <;>
        cases hv : is_invalid_token token <;> cases hp : is_operator prev <;>
        cases hn : is_operator next <;>
        simp_all [bind, Except.bind, pure, Except.pure]

theorem validLoop_eq (α : Type) (tokens : List Token) (fuel i : Nat) (p : stack α)
    (hf : fuel = tokens.length - i) (hi : i ≤ tokens.length) :
    validLoop α tokens fuel i p = .ok (okFrom tokens i (tokens.drop i) p.topNode.length) := by
  induction fuel generalizing i p with
  | zero =>
    have : i = tokens.length := by omega
    subst this
    obtain ⟨nodes, len⟩ := p
    cases nodes <;> simp [validLoop, okFrom, stack.empty, pure, Except.pure]
  | succ fuel ih =>
    have hlt : i < tokens.length := by omega
    have hdrop : tokens.drop i = tokens.getD i [] :: tokens.drop (i + 1) := by
      rw [List.drop_eq_getElem_cons hlt]
      simp [List.getD, List.getElem?_eq_getElem hlt]
    have hf' : fuel = tokens.length - (i + 1) := by omega
    rw [hdrop, validLoop, if_pos hlt, vecAt_lt _ _ hlt]
    simp only [bind, Except.bind, okFrom]
    clear hdrop
    generalize tokens.getD i [] = t
    by_cases ho : (t == ['(']) = true
    · simp only [ho, if_true]
      rw [ih (i + 1) _ hf' hlt]
      simp
    · simp only [ho, Bool.false_eq_true, if_false]
      by_cases hc : (t == [')']) = true
      · simp only [hc, if_true]
        obtain ⟨nodes, len⟩ := p
        cases nodes with
        | nil => simp [stack.empty, pure, Except.pure]
        | cons v rest =>
          simp only [stack.empty, List.isEmpty_cons, Bool.false_eq_true, if_false, stack.pop]
          rw [ih (i + 1) _ hf' hlt]
          simp
      · simp only [hc, Bool.false_eq_true, if_false]
        rw [operatorBranches_eq _ _ _ hlt]
        by_cases hr : rejects tokens i t = true
        · simp [hr, pure, Except.pure]
        · simp only [hr, Bool.false_eq_true, if_false]
          rw [ih (i + 1) _ hf' hlt]
          simp [hr]

theorem is_valid_expression_eq (α : Type) (tokens : List Token) :
    is_valid_expression α tokens = .ok (okFrom tokens 0 tokens 0) := by
  have h := validLoop_eq α tokens tokens.length 0 stack.new (by simp) (Nat.zero_le _)
  simpa [is_valid_expression, stack.new] using h

theorem okFrom_balanced (tokens : List Token) (rest : List Token) (i d : Nat)
    (h : okFrom tokens i rest d = true) :
    (∀ k, (rest.take k).count [')'] ≤ d + (rest.take k).count ['(']) ∧
      d + rest.count ['('] = rest.count [')'] := by
  induction rest generalizing i d with
  | nil => simpa [okFrom] using h
  | cons t r ih =>
    rw [okFrom] at h
    by_cases ho : (t == ['(']) = true
    · have hto : t = ['('] := by simpa using ho
      subst hto
      rw [if_pos ho] at h
      obtain ⟨h1, h2⟩ := ih _ _ h
      refine ⟨fun k => ?_, ?_⟩
      · cases k with
        | zero => simp
        | succ k =>
          have := h1 k
          simp only [List.take_succ_cons, List.count_cons]
          simp
          omega
      · simp only [List.count_cons]
        simp
        omega
    · rw [if_neg ho] at h
      by_cases hc : (t == [')']) = true
      · have htc : t = [')'] := by simpa using hc
        subst htc
        rw [if_pos hc] at h
        simp only [Bool.and_eq_true, bne_iff_ne, ne_eq] at h
        obtain ⟨h1, h2⟩ := ih _ _ h.2
        refine ⟨fun k => ?_, ?_⟩
        · cases k with
          | zero => simp
          | succ k =>
            have := h1 k
            simp only [List.take_succ_cons, List.count_cons]
            simp
            omega
        · simp only [List.count_cons]
          simp
          omega
      · rw [if_neg hc] at h
        simp only [Bool.and_eq_true] at h
        obtain ⟨h1, h2⟩ := ih _ _ h.2
        have ho' : ¬ t = ['('] := by simpa using ho
        have hc' : ¬ t = [')'] := by simpa using hc
        refine ⟨fun k => ?_, ?_⟩
        · cases k with
          | zero => simp
          | succ k =>
            have := h1 k
            simp only [List.take_succ_cons, List.count_cons]
            simp [ho', hc']
            omega
        · simp only [List.count_cons]
          simp [ho', hc']
          omega

theorem okFrom_unbalanced (tokens : List Token) (h : Unbalanced tokens) :
    okFrom tokens 0 tokens 0 = false := by
  cases hv : okFrom tokens 0 tokens 0 with
  | false => rfl
  | true =>
    obtain ⟨h1, h2⟩ := okFrom_balanced tokens tokens 0 0 hv
    rcases h with ⟨k, hk⟩ | hne
    · have := h1 k
      omega
    · omega

theorem is_operator_not_paren (t : Token) (h : is_operator t = true) :
    (t == ['(']) = false ∧ (t == [')']) = false := by
  simp only [is_operator, Bool.or_eq_true, beq_iff_eq] at h
  rcases h with ((h | h) | h) | h <;> subst h <;> decide

theorem okFrom_first_operator (t : Token) (r : List Token) (h : is_operator t = true) :
    okFrom (t :: r) 0 (t :: r) 0 = false := by
  obtain ⟨h1, h2⟩ := is_operator_not_paren t h
  simp [okFrom, h1, h2, rejects, h]

theorem okFrom_last_operator (tokens rest : List Token) (i d : Nat) (t : Token)
    (hlen : i + rest.length = tokens.length) (hlast : rest.getLast? = some t)
    (h : is_operator t = true) : okFrom tokens i rest d = false := by
  induction rest generalizing i d with
  | nil => simp at hlast
  | cons u r ih =>
    cases r with
    | nil =>
      have hu : u = t := by simpa using hlast
      subst hu
      obtain ⟨h1, h2⟩ := is_operator_not_paren u h
      have hi : i = tokens.length - 1 := by simp at hlen; omega
      simp [okFrom, h1, h2, rejects, h, hi]
    | cons w r' =>
      have hlast' : (w :: r').getLast? = some t := by
        simpa [List.getLast?_cons_cons] using hlast
      have hlen' : (i + 1) + (w :: r').length = tokens.length := by
        simp only [List.length_cons] at hlen ⊢
        omega
      rw [okFrom]
      split
      · exact ih _ _ hlen' hlast'
      · split
        · rw [ih _ _ hlen' hlast']; simp
        · rw [ih _ _ hlen' hlast']; simp

/-- C3: on every token sequence whose parentheses are unbalanced (some prefix
holds more `")"` than `"("` tokens, or the totals differ) `is_valid_expression`
returns false; so it does on the tokens of `"(1+2"`. -/
theorem C3_unbalanced_invalid (α : Type) :
    (∀ tokens : List Token, Unbalanced tokens → is_valid_expression α tokens = .ok false) ∧
    Unbalanced (tokenize "(1+2".toList) ∧
    is_valid_expression α (tokenize "(1+2".toList) = .ok false := by
  have hgen : ∀ tokens : List Token, Unbalanced tokens →
      is_valid_expression α tokens = .ok false := by
    intro tokens h
    rw [is_valid_expression_eq, okFrom_unbalanced tokens h]
  have hex : Unbalanced (tokenize "(1+2".toList) := Or.inr (by decide)
  exact ⟨hgen, hex, hgen _ hex⟩

/-- Witness of C3 on the tokens `"("`, `"1"`. -/
theorem C3_unbalanced_invalid_witness :
    Unbalanced [['('], ['1']] ∧ is_valid_expression Unit [['('], ['1']] = .ok false :=
  ⟨Or.inr (by decide), (C3_unbalanced_invalid Unit).1 _ (Or.inr (by decide))⟩

/-- C4: on every non-empty token sequence whose first token or whose last token
is one of `"+"`, `"-"`, `"*"`, `"/"`, `is_valid_expression` returns false; so it
does on the tokens of `"+1"`, of `"1+"` and of the expression fixed in `main`,
whose run prints the single line `False`. -/
theorem C4_operator_first_or_last (α : Type) :
    (∀ (tokens : List Token) (t : Token),
      tokens.head? = some t ∨ tokens.getLast? = some t → is_operator t = true →
      is_valid_expression α tokens = .ok false) ∧
    is_valid_expression α (tokenize "+1".toList) = .ok false ∧
    is_valid_expression α (tokenize "1+".toList) = .ok false ∧
    (tokenize mainExpr).getLast? = some ['+'] ∧
    is_valid_expression α (tokenize mainExpr) = .ok false ∧
    (∀ (A : Arith α) (print : α → List Char), main A print = .ok ["False".toList]) := by
  have hm : is_valid_expression α (tokenize mainExpr) = .ok false := by
    rw [is_valid_expression_eq]; decide
  refine ⟨?_, ?_, ?_, by decide, hm, ?_⟩
  · intro tokens t hpos hop
    rw [is_valid_expression_eq]
    rcases hpos with hfirst | hlast
    · cases tokens with
      | nil => simp at hfirst
      | cons u r =>
        have hu : u = t := by simpa using hfirst
        subst hu
        rw [okFrom_first_operator u r hop]
    · rw [okFrom_last_operator tokens tokens 0 0 t (by simp) hlast hop]
  · rw [is_valid_expression_eq]; decide
  · rw [is_valid_expression_eq]; decide
  · intro A print
    simp [main, mainOn, hm, bind, Except.bind, pure, Except.pure]

/-- Witness of C4 on the tokens `"1"`, `"+"`. -/
theorem C4_operator_first_or_last_witness :
    is_valid_expression Unit [['1'], ['+']] = .ok false :=
  (C4_operator_first_or_last Unit).1 [['1'], ['+']] ['+'] (Or.inr rfl) (by decide)

/-- C5 (the code does otherwise): a minus sign at the start is rejected like any
other operator at the start.  On the tokens `"-"`, `n`, whatever the token `n`,
`is_valid_expression` returns false, and so on the tokens of `"-1"`: the branch
of `is_unary_minus` is reached only after the operator branch has returned. -/
theorem C5_unary_minus_rejected (α : Type) (n : Token) :
    is_valid_expression α [['-'], n] = .ok false ∧
    tokenize "-1".toList = [['-'], ['1']] ∧
    is_valid_expression α (tokenize "-1".toList) = .ok false := by
  have h : ∀ m : Token, is_valid_expression α [['-'], m] = .ok false := by
    intro m
    rw [is_valid_expression_eq, okFrom_first_operator ['-'] [m] (by decide)]
  have ht : tokenize "-1".toList = [['-'], ['1']] := by decide
  exact ⟨h n, ht, by rw [ht]; exact h _⟩

/-! ## Evaluator: identifiers -/

theorem isalpha_not_isdigit (c : Char) (h : isalpha c = true) :
    isdigit c = false ∧ (c == '-') = false ∧ isspace c = false ∧ (c == '.') = false := by
  have h45 : ('-' : Char).toNat = 45 := by decide
  have h46 : ('.' : Char).toNat = 46 := by decide
  refine ⟨?_, ?_, ?_, ?_⟩
  · simp only [isalpha, isdigit, Bool.or_eq_true, Bool.and_eq_true, decide_eq_true_eq,
      Bool.and_eq_false_iff, decide_eq_false_iff_not] at h ⊢
    omega
  · cases hc : (c == '-') with
    | false => rfl
    | true =>
      have : c = '-' := by simpa using hc
      subst this
      exact absurd h (by decide)
  · simp only [isalpha, isspace, Bool.or_eq_true, Bool.and_eq_true, decide_eq_true_eq,
      Bool.or_eq_false_iff, Bool.and_eq_false_iff, decide_eq_false_iff_not, beq_eq_false_iff_ne,
      ne_eq] at h ⊢
    omega
  · cases hc : (c == '.') with
    | false => rfl
    | true =>
      have : c = '.' := by simpa using hc
      subst this
      exact absurd h (by decide)

theorem isIdentifier_head (t : Token) (h : isIdentifier t = true) :
    isalpha (charAt t 0) = true := by
  cases t with
  | nil => simp [isIdentifier] at h
  | cons c cs =>
    simp only [isIdentifier, List.isEmpty_cons, Bool.not_false, List.all_cons, Bool.true_and,
      Bool.and_eq_true] at h
    simpa [charAt] using h.1

theorem evalToken_identifier {α : Type} (A : Arith α) (values operators : stack α) (t : Token)
    (h : isIdentifier t = true) :
    evalToken A values operators t =
      if t = ['x'] ∨ t = ['y'] then .ok (values.push (.num A.zero), operators)
      else .error (.unknownVariable t) := by
  have ha := isIdentifier_head t h
  obtain ⟨hd, hm, _, _⟩ := isalpha_not_isdigit _ ha
  unfold evalToken
  simp only [hd, hm, Bool.false_and, Bool.or_self, Bool.false_eq_true, if_false, ha, if_true]
  by_cases hx : t = ['x']
  · simp [hx]
  · by_cases hy : t = ['y']
    · simp [hy]
    · simp [hx, hy]

theorem evalTokens_fails {α : Type} (A : Arith α) (tokens : List Token) (t : Token)
    (ht : t ∈ tokens) (hfail : ∀ values operators, ∃ e, evalToken A values operators t = .error e)
    (values operators : stack α) : ∃ e, evalTokens A tokens values operators = .error e := by
  induction tokens generalizing values operators with
  | nil => simp at ht
  | cons u r ih =>
    rw [evalTokens]
    cases hu : evalToken A values operators u with
    | error e => exact ⟨e, rfl⟩
    | ok st =>
      obtain ⟨values', operators'⟩ := st
      rcases List.mem_cons.mp ht with heq | hmem
      · subst heq
        obtain ⟨e, he⟩ := hfail values operators
        rw [he] at hu
        cases hu
      · obtain ⟨e, he⟩ := ih hmem values' operators'
        exact ⟨e, by simpa [bind, Except.bind] using he⟩

/-- C6: for every identifier token `t`, `evaluate_expression([t])` returns `0.0`
when `t` is `"x"` or `"y"` and throws "Unknown variable: t" otherwise; and no
token sequence that contains an identifier other than `"x"` and `"y"` evaluates
to a number. -/
theorem C6_identifiers {α : Type} (A : Arith α) :
    (∀ t : Token, isIdentifier t = true →
      evaluate_expression A [t] =
        if t = ['x'] ∨ t = ['y'] then .ok A.zero else .error (.unknownVariable t)) ∧
    evaluate_expression A [['z']] = .error (.unknownVariable ['z']) ∧
    evaluate_expression A [['x', 'y']] = .error (.unknownVariable ['x', 'y']) ∧
    (∀ (tokens : List Token) (t : Token), t ∈ tokens → isIdentifier t = true →
      t ≠ ['x'] → t ≠ ['y'] → ∀ v : α, evaluate_expression A tokens ≠ .ok v) := by
  have h1 : ∀ t : Token, isIdentifier t = true →
      evaluate_expression A [t] =
        if t = ['x'] ∨ t = ['y'] then .ok A.zero else .error (.unknownVariable t) := by
    intro t ht
    simp only [evaluate_expression, evalTokens, evalToken_identifier A _ _ t ht]
    by_cases hxy : t = ['x'] ∨ t = ['y']
    · simp [hxy, bind, Except.bind, pure, Except.pure, drain, stack.new, applyWhile,
        NorS.getNum]
    · simp [hxy, bind, Except.bind]
  refine ⟨h1, ?_, ?_, ?_⟩
  · simpa using h1 ['z'] (by decide)
  · simpa using h1 ['x', 'y'] (by decide)
  · intro tokens t hmem hid hx hy v
    have hfail : ∀ values operators : stack α,
        ∃ e, evalToken A values operators t = .error e := by
      intro values operators
      rw [evalToken_identifier A values operators t hid]
      simp [hx, hy]
    obtain ⟨e, he⟩ := evalTokens_fails A tokens t hmem hfail stack.new stack.new
    simp [evaluate_expression, he, bind, Except.bind]

/-- Witness of C6: the tokens `"1"`, `"+"`, `"z"` do not evaluate to a number. -/
theorem C6_identifiers_witness :
    evaluate_expression intArith [['1'], ['+'], ['z']] ≠ .ok 1 :=
  (C6_identifiers intArith).2.2.2 [['1'], ['+'], ['z']] ['z'] (by decide) (by decide)
    (by decide) (by decide) 1

/-! ## Tokenizer -/

theorem charAt_append (pre suf : List Char) (m : Nat) :
    charAt (pre ++ suf) (pre.length + m) = charAt suf m := by
  simp [charAt, List.getD_eq_getElem?_getD, List.getElem?_append_right]

theorem charAt_nul_not_digit : isdigit (Char.ofNat 0) = false := by decide

theorem take_takeWhile_length (p : Char → Bool) (l : List Char) :
    l.take (l.takeWhile p).length = l.takeWhile p := by
  induction l with
  | nil => rfl
  | cons c cs ih =>
    by_cases hc : p c = true
    · simp [List.takeWhile_cons, hc, ih]
    · simp [List.takeWhile_cons, hc]

theorem takeWhile_length_le (p : Char → Bool) (l : List Char) :
    (l.takeWhile p).length ≤ l.length := by
  induction l with
  | nil => simp
  | cons c cs ih =>
    by_cases hc : p c = true
    · simp [List.takeWhile_cons, hc, ih]
    · simp [List.takeWhile_cons, hc]

theorem scanWhile_append (p : Char → Bool) (suf pre : List Char) (fuel : Nat)
    (hf : suf.length ≤ fuel) :
    scanWhile p (pre ++ suf) fuel pre.length = pre.length + (suf.takeWhile p).length := by
  induction suf generalizing pre fuel with
  | nil =>
    cases fuel with
    | zero => simp [scanWhile]
    | succ f => simp [scanWhile]
  | cons c cs ih =>
    cases fuel with
    | zero => simp at hf
    | succ f =>
      have hc : charAt (pre ++ c :: cs) pre.length = c := by
        simpa [charAt] using charAt_append pre (c :: cs) 0
      rw [scanWhile, hc]
      by_cases hp : p c = true
      · have h := ih (pre ++ [c]) f (by simpa using hf)
        simp only [List.append_assoc, List.singleton_append, List.length_append,
          List.length_singleton] at h
        simp [hp, h, List.takeWhile_cons]
        omega
      · simp [hp, List.takeWhile_cons]

theorem substr_append (pre suf : List Char) (n : Nat) :
    substr (pre ++ suf) pre.length n = suf.take n := by
  simp [substr]

theorem tokStep_pos (c : Char) (cs : List Char) :
    1 ≤ (tokStep (c :: cs)).2 ∧ (tokStep (c :: cs)).2 ≤ (c :: cs).length := by
  unfold tokStep
  have hc : charAt (c :: cs) 0 = c := rfl
  rw [hc]
  split
  · simp
  · split
    · rename_i h
      have hn : numChar c = true := by
        simp only [numChar, Bool.or_eq_true, Bool.and_eq_true] at h ⊢
        rcases h with h | h
        · exact Or.inl h
        · exact Or.inr h.1
      refine ⟨?_, takeWhile_length_le _ _⟩
      simp [List.takeWhile_cons, hn]
    · split
      · rename_i h
        refine ⟨?_, takeWhile_length_le _ _⟩
        simp [List.takeWhile_cons, h]
      · simp

theorem tokenizeLoop_step (pre : List Char) (c : Char) (cs : List Char) (fuel : Nat)
    (acc : List Token) :
    tokenizeLoop (pre ++ c :: cs) (fuel + 1) pre.length acc =
      tokenizeLoop (pre ++ c :: cs) fuel (pre.length + (tokStep (c :: cs)).2)
        (acc ++ (tokStep (c :: cs)).1) := by
  have hlt : pre.length < (pre ++ c :: cs).length := by simp
  have h0 : charAt (pre ++ c :: cs) pre.length = c := by
    simpa [charAt] using charAt_append pre (c :: cs) 0
  have h1 : charAt (pre ++ c :: cs) (pre.length + 1) = charAt (c :: cs) 1 :=
    charAt_append pre (c :: cs) 1
  have hnext : (decide (pre.length + 1 < (pre ++ c :: cs).length) &&
      isdigit (charAt (c :: cs) 1)) = isdigit (charAt (c :: cs) 1) := by
    cases cs with
    | nil => simp [charAt, charAt_nul_not_digit]
    | cons d ds => simp
  have hscan : ∀ p : Char → Bool,
      scanWhile p (pre ++ c :: cs) (pre ++ c :: cs).length pre.length =
        pre.length + ((c :: cs).takeWhile p).length :=
    fun p => scanWhile_append p (c :: cs) pre _ (by simp)
  have hpos := (tokStep_pos c cs).1
  rw [tokenizeLoop, if_pos hlt, h0, h1]
  unfold tokStep at hpos ⊢
  have hc : charAt (c :: cs) 0 = c := rfl
  rw [hc] at hpos ⊢
  by_cases hs : isspace c = true
  · simp [hs]
  · rw [if_neg hs, if_neg hs]
    rw [if_neg hs] at hpos
    rw [Bool.and_assoc, hnext]
    by_cases hd : (isdigit c || (c == '.' && isdigit (charAt (c :: cs) 1))) = true
    · rw [if_pos hd, if_pos hd]
      rw [if_pos hd] at hpos
      simp only at hpos ⊢
      have hsc := hscan (fun c => isdigit c || c == '.')
      have hnc : (fun c => isdigit c || c == '.') = numChar := rfl
      rw [hnc] at hsc ⊢
      rw [hsc, substr_append, Nat.add_sub_cancel_left, take_takeWhile_length]
      congr 1
      omega
    · rw [if_neg hd, if_neg hd]
      rw [if_neg hd] at hpos
      by_cases ha : isalpha c = true
      · rw [if_pos ha, if_pos ha]
        rw [if_pos ha] at hpos
        simp only at hpos ⊢
        rw [hscan isalpha, substr_append, Nat.add_sub_cancel_left, take_takeWhile_length]
        congr 1
        omega
      · rw [if_neg ha, if_neg ha]

theorem tokenizeLoop_append_aux (n : Nat) :
    ∀ suf : List Char, suf.length ≤ n → ∀ fuel, suf.length ≤ fuel →
      ∀ (pre : List Char) (acc : List Token),
        tokenizeLoop (pre ++ suf) fuel pre.length acc = acc ++ tokenize suf := by
  induction n with
  | zero =>
    intro suf hn fuel _ pre acc
    have : suf = [] := List.length_eq_zero.mp (by omega)
    subst this
    cases fuel <;> simp [tokenizeLoop, tokenize]
  | succ n ih =>
    intro suf hn fuel hf pre acc
    cases suf with
    | nil => cases fuel <;> simp [tokenizeLoop, tokenize]
    | cons c cs =>
      cases fuel with
      | zero => simp at hf
      | succ f =>
        obtain ⟨hk1, hk2⟩ := tokStep_pos c cs
        have hsplit : c :: cs = (c :: cs).take (tokStep (c :: cs)).2 ++
            (c :: cs).drop (tokStep (c :: cs)).2 := (List.take_append_drop _ _).symm
        have hlen : ((c :: cs).take (tokStep (c :: cs)).2).length = (tokStep (c :: cs)).2 := by
          rw [List.length_take]; omega
        have hdrop : ((c :: cs).drop (tokStep (c :: cs)).2).length ≤ n := by
          rw [List.length_drop]
          simp only [List.length_cons] at hn hk2 ⊢
          omega
        have hdropf : ((c :: cs).drop (tokStep (c :: cs)).2).length ≤ f := by
          rw [List.length_drop]
          simp only [List.length_cons] at hf hk2 ⊢
          omega
        have hdropc : ((c :: cs).drop (tokStep (c :: cs)).2).length ≤ cs.length := by
          rw [List.length_drop]
          simp only [List.length_cons] at hk2 ⊢
          omega
        have hL := ih _ hdrop f hdropf (pre ++ (c :: cs).take (tokStep (c :: cs)).2)
          (acc ++ (tokStep (c :: cs)).1)
        have hR := ih _ hdrop cs.length hdropc ((c :: cs).take (tokStep (c :: cs)).2)
          ((tokStep (c :: cs)).1)
        rw [List.append_assoc, ← hsplit, List.length_append, hlen] at hL
        rw [← hsplit, hlen] at hR
        have hR' : tokenize (c :: cs) =
            (tokStep (c :: cs)).1 ++ tokenize ((c :: cs).drop (tokStep (c :: cs)).2) := by
          have h := tokenizeLoop_step [] c cs cs.length []
          simp only [List.nil_append, List.length_nil, Nat.zero_add] at h
          rw [tokenize, List.length_cons, h, hR]
        rw [tokenizeLoop_step, hL, hR', List.append_assoc]

/-- One iteration of `tokenize`, as an equation on the rest of the input. -/
theorem tokenize_cons (c : Char) (cs : List Char) :
    tokenize (c :: cs) =
      (tokStep (c :: cs)).1 ++ tokenize ((c :: cs).drop (tokStep (c :: cs)).2) := by
  obtain ⟨hk1, hk2⟩ := tokStep_pos c cs
  have hlen : ((c :: cs).take (tokStep (c :: cs)).2).length = (tokStep (c :: cs)).2 := by
    rw [List.length_take]; omega
  have hdropc : ((c :: cs).drop (tokStep (c :: cs)).2).length ≤ cs.length := by
    rw [List.length_drop]
    simp only [List.length_cons] at hk2 ⊢
    omega
  have hR := tokenizeLoop_append_aux _ _ (le_refl _) cs.length hdropc
    ((c :: cs).take (tokStep (c :: cs)).2) ((tokStep (c :: cs)).1)
  rw [List.take_append_drop, hlen] at hR
  have h := tokenizeLoop_step [] c cs cs.length []
  simp only [List.nil_append, List.length_nil, Nat.zero_add] at h
  rw [tokenize, List.length_cons, h, hR]

theorem isdigit_not_others (c : Char) (h : isdigit c = true) :
    isspace c = false ∧ isalpha c = false ∧ numChar c = true := by
  refine ⟨?_, ?_, by simp [numChar, h]⟩
  · simp only [isdigit, isspace, Bool.and_eq_true, decide_eq_true_eq,
      Bool.or_eq_false_iff, Bool.and_eq_false_iff, decide_eq_false_iff_not, beq_eq_false_iff_ne,
      ne_eq] at h ⊢
    omega
  · simp only [isdigit, isalpha, Bool.and_eq_true, decide_eq_true_eq,
      Bool.or_eq_false_iff, Bool.and_eq_false_iff, decide_eq_false_iff_not] at h ⊢
    omega

theorem takeWhile_append_stop (p : Char → Bool) (l rest : List Char)
    (hl : ∀ x ∈ l, p x = true) (hr : rest = [] ∨ p (charAt rest 0) = false) :
    (l ++ rest).takeWhile p = l := by
  induction l with
  | nil =>
    rcases hr with hr | hr
    · subst hr; rfl
    · cases rest with
      | nil => rfl
      | cons r rs =>
        have : p r = false := by simpa [charAt] using hr
        simp [List.takeWhile_cons, this]
  | cons c cs ih =>
    have hc : p c = true := hl c (List.mem_cons_self _ _)
    simp only [List.cons_append, List.takeWhile_cons, hc, if_true]
    rw [ih (fun x hx => hl x (List.mem_cons_of_mem _ hx))]

theorem tokenize_space (c : Char) (cs : List Char) (h : isspace c = true) :
    tokenize (c :: cs) = tokenize cs := by
  rw [tokenize_cons]
  have hc : charAt (c :: cs) 0 = c := rfl
  simp [tokStep, hc, h]

theorem tokenize_spaces (sp rest : List Char) (h : ∀ c ∈ sp, isspace c = true) :
    tokenize (sp ++ rest) = tokenize rest := by
  induction sp with
  | nil => rfl
  | cons c cs ih =>
    rw [List.cons_append, tokenize_space _ _ (h c (List.mem_cons_self _ _)),
      ih (fun x hx => h x (List.mem_cons_of_mem _ hx))]

theorem tokenize_single (c : Char) (cs : List Char) (hs : isspace c = false)
    (hn : numChar c = false) (ha : isalpha c = false) :
    tokenize (c :: cs) = [c] :: tokenize cs := by
  rw [tokenize_cons]
  have hc : charAt (c :: cs) 0 = c := rfl
  simp only [numChar, Bool.or_eq_false_iff] at hn
  simp [tokStep, hc, hs, hn.1, hn.2, ha]

theorem tokenize_number (c : Char) (cs rest : List Char) (hc : isdigit c = true)
    (hcs : ∀ x ∈ cs, numChar x = true) (hr : rest = [] ∨ numChar (charAt rest 0) = false) :
    tokenize (c :: cs ++ rest) = (c :: cs) :: tokenize rest := by
  obtain ⟨hs, _, hn⟩ := isdigit_not_others c hc
  have hrun : ((c :: cs) ++ rest).takeWhile numChar = c :: cs := by
    apply takeWhile_append_stop _ _ _ _ hr
    intro x hx
    rcases List.mem_cons.mp hx with h | h
    · rw [h]; exact hn
    · exact hcs x h
  have hrun' : (c :: (cs ++ rest)).takeWhile numChar = c :: cs := by simpa using hrun
  rw [List.cons_append, tokenize_cons]
  have h0 : charAt (c :: (cs ++ rest)) 0 = c := rfl
  simp only [tokStep, h0, hs, hc, Bool.true_or, Bool.false_eq_true, if_false, if_true, hrun']
  simp

/-- C10: for non-empty digit strings `d1` and `d2`, `tokenize(d1 + "." + d2)` is
the single token `d1 + "." + d2`, and a following operator and identifier are
tokens of their own: `tokenize(d1 + "." + d2 + "+x")` is `d1 + "." + d2`, `"+"`,
`"x"`; in particular `tokenize("12.5+x")` is `"12.5"`, `"+"`, `"x"`. -/
theorem C10_tokenize_decimal (d1 d2 : List Char) (h1 : isDigitString d1 = true)
    (h2 : isDigitString d2 = true) :
    tokenize (d1 ++ ['.'] ++ d2) = [d1 ++ ['.'] ++ d2] ∧
    tokenize (d1 ++ ['.'] ++ d2 ++ ['+', 'x']) = [d1 ++ ['.'] ++ d2, ['+'], ['x']] ∧
    tokenize "12.5+x".toList = ["12.5".toList, "+".toList, "x".toList] := by
  cases d1 with
  | nil => simp [isDigitString] at h1
  | cons c cs =>
    simp only [isDigitString, List.isEmpty_cons, Bool.not_false, List.all_cons, Bool.true_and,
      Bool.and_eq_true, List.all_eq_true] at h1 h2
    have hall : ∀ x ∈ cs ++ ['.'] ++ d2, numChar x = true := by
      intro x hx
      simp only [List.append_assoc, List.mem_append, List.mem_singleton] at hx
      rcases hx with h | h | h
      · exact (isdigit_not_others x (h1.2 x h)).2.2
      · subst h; decide
      · exact (isdigit_not_others x (h2.2 x h)).2.2
    have ha := tokenize_number c (cs ++ ['.'] ++ d2) [] h1.1 hall (Or.inl rfl)
    have hb := tokenize_number c (cs ++ ['.'] ++ d2) ['+', 'x'] h1.1 hall (Or.inr (by decide))
    have hplus : tokenize ['+', 'x'] = [['+'], ['x']] := by decide
    have hnil : tokenize [] = [] := rfl
    refine ⟨?_, ?_, by decide⟩
    · simpa [hnil] using ha
    · simpa [hplus] using hb

/-- Witness of C10 at `d1 = "12"`, `d2 = "5"`. -/
theorem C10_tokenize_decimal_witness :
    tokenize (['1', '2'] ++ ['.'] ++ ['5']) = [['1', '2'] ++ ['.'] ++ ['5']] ∧
    tokenize (['1', '2'] ++ ['.'] ++ ['5'] ++ ['+', 'x']) =
      [['1', '2'] ++ ['.'] ++ ['5'], ['+'], ['x']] ∧
    tokenize "12.5+x".toList = ["12.5".toList, "+".toList, "x".toList] :=
  C10_tokenize_decimal ['1', '2'] ['5'] (by decide) (by decide)

/-! ## Evaluator: the two stacks -/

theorem precedence_binop (op : BinOp) : 1 ≤ precedence op.char ∧ precedence op.char ≤ 2 := by
  cases op <;> decide

/-- The table of `precedence` gives the four operators their standard levels. -/
theorem precedence_level (op : BinOp) : precedence op.char = op.level := by
  cases op <;> rfl

theorem applyTop_push {α : Type} (A : Arith α) (op : BinOp) (a b : α)
    (values operators : stack α) :
    applyTop A ((values.push (.num a)).push (.num b)) (operators.push (.sym op.char)) =
      .ok (values.push (.num (op.apply A a b)), operators) := by
  cases op <;>
    simp [applyTop, bind, Except.bind, pure, Except.pure, NorS.getSym, NorS.getNum,
      applySwitch, BinOp.char, BinOp.apply]

theorem applyWhile_empty {α : Type} (A : Arith α) (cond : stack α → Except Err Bool)
    (fuel : Nat) (values operators : stack α) (h : operators.topNode = []) :
    applyWhile A cond fuel values operators = .ok (values, operators) := by
  cases fuel with
  | zero => rfl
  | succ f => simp [applyWhile, stack.empty, h, pure, Except.pure]

theorem applyWhile_stop {α : Type} (A : Arith α) (cond : stack α → Except Err Bool)
    (fuel : Nat) (values operators : stack α) (h : cond operators = .ok false) :
    applyWhile A cond fuel values operators = .ok (values, operators) := by
  cases fuel with
  | zero => rfl
  | succ f =>
    rw [applyWhile]
    split
    · simp [h, bind, Except.bind, pure, Except.pure]
    · rfl

theorem applyTop_length {α : Type} (A : Arith α) (values operators values' operators' : stack α)
    (h : applyTop A values operators = .ok (values', operators')) :
    operators.topNode.length = operators'.topNode.length + 1 := by
  obtain ⟨nodes, len⟩ := operators
  cases nodes with
  | nil => simp [applyTop, stack.pop, bind, Except.bind] at h
  | cons t rest =>
    have hpop : stack.pop (⟨t :: rest, len⟩ : stack α) = .ok (t, ⟨rest, len - 1⟩) := rfl
    rw [applyTop, hpop] at h
    simp only [bind, Except.bind, pure, Except.pure] at h
    cases hs : t.getSym with
    | error e => simp [hs] at h
    | ok c =>
      cases hb : values.pop with
      | error e => simp [hs, hb] at h
      | ok rb =>
        cases hbn : rb.1.getNum with
        | error e => simp [hs, hb, hbn] at h
        | ok b =>
          cases ha : rb.2.pop with
          | error e => simp [hs, hb, hbn, ha] at h
          | ok ra =>
            cases han : ra.1.getNum with
            | error e => simp [hs, hb, hbn, ha, han] at h
            | ok a =>
              simp only [hs, hb, hbn, ha, han, Except.ok.injEq, Prod.mk.injEq] at h
              rw [← h.2]
              rfl

/-- The fuel given to the loops of the evaluator is enough: more fuel than the
operator stack has nodes changes nothing. -/
theorem applyWhile_fuel {α : Type} (A : Arith α) (cond : stack α → Except Err Bool)
    (fuel : Nat) (values operators : stack α) (hf : operators.topNode.length ≤ fuel) :
    applyWhile A cond fuel values operators =
      applyWhile A cond operators.topNode.length values operators := by
  induction fuel generalizing values operators with
  | zero =>
    have : operators.topNode.length = 0 := by omega
    rw [this]
  | succ f ih =>
    cases hnodes : operators.topNode with
    | nil =>
      rw [applyWhile_empty A cond _ _ _ hnodes, List.length_nil]
      rfl
    | cons t rest =>
      have hne : operators.empty = false := by simp [stack.empty, hnodes]
      simp only [List.length_cons, applyWhile, hne, Bool.not_false, if_true]
      cases hc : cond operators with
      | error e => rfl
      | ok b =>
        cases b with
        | false => rfl
        | true =>
          cases ht : applyTop A values operators with
          | error e => simp [bind, Except.bind, ht]
          | ok st =>
            obtain ⟨v, o⟩ := st
            have hlen := applyTop_length A values operators v o ht
            rw [hnodes, List.length_cons] at hlen
            have hro : rest.length = o.topNode.length := by omega
            have hfo : o.topNode.length ≤ f := by
              rw [hnodes, List.length_cons] at hf
              omega
            simp only [bind, Except.bind, ht, if_true]
            rw [ih v o hfo, hro]

theorem applyWhile_reduces {α : Type} (A : Arith α) (cond : stack α → Except Err Bool)
    (p : Int) (values operators values' operators' : stack α)
    (hcond : ∀ (op : BinOp) (o : stack α), p ≤ precedence op.char →
      cond (o.push (.sym op.char)) = .ok true)
    (h : Reduces A p values operators values' operators') :
    applyWhile A cond operators.topNode.length values operators =
      applyWhile A cond operators'.topNode.length values' operators' := by
  induction h with
  | refl => rfl
  | step op a b values operators values' operators' hp _ ih =>
    rw [← ih]
    simp only [topNode_push, List.length_cons]
    rw [applyWhile]
    simp [hcond op operators hp, applyTop_push, bind, Except.bind]

theorem reduces_mono {α : Type} {A : Arith α} {p q : Int} {v o v' o' : stack α}
    (hpq : p ≤ q) (h : Reduces A q v o v' o') : Reduces A p v o v' o' := by
  induction h with
  | refl => exact .refl _ _
  | step op a b values operators values' operators' hq _ ih =>
    exact .step op a b values operators values' operators' (le_trans hpq hq) ih

theorem reduces_trans {α : Type} {A : Arith α} {p : Int} {v o v' o' v'' o'' : stack α}
    (h : Reduces A p v o v' o') (h' : Reduces A p v' o' v'' o'') :
    Reduces A p v o v'' o'' := by
  induction h with
  | refl => exact h'
  | step op a b values operators values' operators' hp _ ih =>
    exact .step op a b values operators _ _ hp (ih h')

theorem topPrecGe_push {α : Type} (token : Token) (o : stack α) (c : Char) :
    topPrecGe token (o.push (.sym c)) =
      .ok (decide (precedence c ≥ precedence (charAt token 0))) := rfl

theorem topNotParen_push {α : Type} (o : stack α) (c : Char) :
    topNotParen (o.push (.sym c)) = .ok (c != '(') := rfl

theorem topPrecGe_blocked {α : Type} (token : Token) (o : stack α)
    (h : Blocked (precedence (charAt token 0)) o) (hne : o.topNode ≠ []) :
    topPrecGe token o = .ok false := by
  rcases h with h | ⟨c, rest, hc, hlt⟩
  · exact absurd h hne
  · obtain ⟨nodes, len⟩ := o
    simp only at hc
    subst hc
    simp [topPrecGe, stack.gettop, NorS.getSym, bind, Except.bind, pure, Except.pure]
    exact hlt

theorem evalTokens_append {α : Type} (A : Arith α) (xs ys : List Token)
    (values operators : stack α) :
    evalTokens A (xs ++ ys) values operators =
      (evalTokens A xs values operators >>= fun st => evalTokens A ys st.1 st.2) := by
  induction xs generalizing values operators with
  | nil => simp [evalTokens, bind, Except.bind]
  | cons x xs ih =>
    simp only [List.cons_append, evalTokens, bind, Except.bind]
    cases evalToken A values operators x with
    | error e => rfl
    | ok st =>
      obtain ⟨v, o⟩ := st
      simpa [bind, Except.bind] using ih v o

theorem applyWhile_to_blocked {α : Type} (A : Arith α) (cond : stack α → Except Err Bool)
    (p : Int) (values operators values' operators' : stack α)
    (hcond : ∀ (op : BinOp) (o : stack α), p ≤ precedence op.char →
      cond (o.push (.sym op.char)) = .ok true)
    (h : Reduces A p values operators values' operators')
    (hend : operators'.topNode = [] ∨ cond operators' = .ok false) :
    applyWhile A cond operators.topNode.length values operators = .ok (values', operators') := by
  rw [applyWhile_reduces A cond p _ _ _ _ hcond h]
  rcases hend with hempty | hstop
  · exact applyWhile_empty A cond _ _ _ hempty
  · exact applyWhile_stop A cond _ _ _ hstop

theorem blocked_mono {α : Type} {p q : Int} {o : stack α} (hpq : p ≤ q) (h : Blocked p o) :
    Blocked q o := by
  rcases h with h | ⟨c, rest, hc, hlt⟩
  · exact Or.inl h
  · exact Or.inr ⟨c, rest, hc, lt_of_lt_of_le hlt hpq⟩

theorem isNumberLiteral_head (n : Token) (h : isNumberLiteral n = true) :
    ∃ c cs, n = c :: cs ∧ isdigit c = true ∧ ∀ x ∈ cs, numChar x = true := by
  cases n with
  | nil => exact absurd h (by decide)
  | cons c cs =>
    simp only [isNumberLiteral, Bool.and_eq_true, List.all_cons, List.all_eq_true] at h
    exact ⟨c, cs, rfl, h.1, h.2.2⟩

theorem evalToken_literal {α : Type} (A : Arith α) (values operators : stack α) (n : Token)
    (d : α) (hn : isNumberLiteral n = true) (hd : A.stod n = .ok d) :
    evalToken A values operators n = .ok (values.push (.num d), operators) := by
  obtain ⟨c, cs, rfl, hc, _⟩ := isNumberLiteral_head n hn
  have h0 : charAt (c :: cs) 0 = c := rfl
  simp [evalToken, h0, hc, hd]

theorem evalToken_open {α : Type} (A : Arith α) (values operators : stack α) :
    evalToken A values operators ['('] = .ok (values, operators.push (.sym '(')) := rfl

theorem evalToken_close {α : Type} (A : Arith α) (values operators : stack α) :
    evalToken A values operators [')'] =
      (applyWhile A topNotParen operators.topNode.length values operators >>= fun st =>
        if st.2.empty then .error .mismatchedParentheses
        else st.2.pop >>= fun r => .ok (st.1, r.2)) := by
  have h : evalToken A values operators [')'] = (do
      let (values, operators) ←
        applyWhile A topNotParen operators.topNode.length values operators
      if operators.empty then throw .mismatchedParentheses
      let (_, operators) ← operators.pop
      pure (values, operators)) := rfl
  rw [h]
  cases applyWhile A topNotParen operators.topNode.length values operators with
  | error e => rfl
  | ok st =>
    obtain ⟨v, o⟩ := st
    cases ho : o.empty <;> cases hp : o.pop <;>
      simp [bind, Except.bind, pure, Except.pure, throw, throwThe, MonadExceptOf.throw, ho, hp]

theorem evalToken_operator {α : Type} (A : Arith α) (values operators : stack α) (op : BinOp) :
    evalToken A values operators [op.char] =
      (applyWhile A (topPrecGe [op.char]) operators.topNode.length values operators >>=
        fun st => .ok (st.1, st.2.push (.sym op.char))) := by
  have h : evalToken A values operators [op.char] = (do
      let (values, operators) ←
        applyWhile A (topPrecGe [op.char]) operators.topNode.length values operators
      pure (values, operators.push (.sym (charAt [op.char] 0)))) := by
    cases op <;> rfl
  rw [h]
  rfl

/-- The token loop on the tokens of a well-formed expression leaves the value of
the expression on top of the value stack, up to pending operators. -/
theorem evalTokens_expr {α : Type} (A : Arith α) (e : Expr) :
    ∀ (p : Int) (d : α) (values operators : stack α), e.lexOk = true → e.binds p = true →
      e.value A = some d → Blocked p operators →
      ∃ values' operators', evalTokens A e.toks values operators = .ok (values', operators') ∧
        Reduces A p values' operators' (values.push (.num d)) operators := by
  induction e with
  | lit n ws =>
    intro p d values operators hlex _ hval _
    simp only [Expr.lexOk, Bool.and_eq_true] at hlex
    have hd : A.stod n = .ok d := by
      simp only [Expr.value] at hval
      cases hs : A.stod n with
      | error e => rw [hs] at hval; cases hval
      | ok x => rw [hs] at hval; cases hval; rfl
    refine ⟨values.push (.num d), operators, ?_, .refl _ _⟩
    simp [Expr.toks, evalTokens, evalToken_literal A values operators n d hlex.1 hd, bind,
      Except.bind]
  | paren ws1 e ws2 ih =>
    intro p d values operators hlex hb hval _
    simp only [Expr.lexOk, Bool.and_eq_true] at hlex
    have hblk : Blocked 1 (operators.push (.sym '(')) :=
      Or.inr ⟨'(', operators.topNode, rfl, by decide⟩
    obtain ⟨v1, o1, hrun, hred⟩ := ih 1 d values (operators.push (.sym '(')) hlex.1.2 hb hval hblk
    refine ⟨values.push (.num d), operators, ?_, .refl _ _⟩
    have hloop := applyWhile_to_blocked A topNotParen 1 v1 o1 _ _
      (fun op o _ => by cases op <;> rfl) hred (Or.inr rfl)
    have hlist : (Expr.paren ws1 e ws2).toks = [['(']] ++ (e.toks ++ [[')']]) := rfl
    rw [hlist]
    simp only [evalTokens_append]
    simp [evalTokens, evalToken_open, hrun, evalToken_close, hloop, bind, Except.bind]
  | bin op ws l r ihl ihr =>
    intro p d values operators hlex hb hval hblk
    simp only [Expr.lexOk, Bool.and_eq_true] at hlex
    simp only [Expr.binds, Bool.and_eq_true, decide_eq_true_eq] at hb
    rw [← precedence_level op] at hb
    obtain ⟨⟨hp, hbl⟩, hbr⟩ := hb
    simp only [Expr.value] at hval
    cases hvl : l.value A with
    | none => rw [hvl] at hval; cases hval
    | some a =>
      cases hvr : r.value A with
      | none => rw [hvl, hvr] at hval; cases hval
      | some b =>
        rw [hvl, hvr] at hval
        have hd : d = op.apply A a b := by cases hval; rfl
        subst hd
        have hblkl : Blocked (precedence op.char) operators := blocked_mono hp hblk
        obtain ⟨v1, o1, hrun1, hred1⟩ := ihl _ a values operators hlex.1.2 hbl hvl hblkl
        have hloop := applyWhile_to_blocked A (topPrecGe [op.char]) (precedence op.char) v1 o1
          _ _ (fun op' o hle => by
            rw [topPrecGe_push]
            have h0 : charAt [op.char] 0 = op.char := rfl
            rw [h0]
            simp [hle]) hred1
          (by
            by_cases hne : operators.topNode = []
            · exact Or.inl hne
            · exact Or.inr (topPrecGe_blocked _ _ hblkl hne))
        have hblkr : Blocked (precedence op.char + 1) (operators.push (.sym op.char)) :=
          Or.inr ⟨op.char, operators.topNode, rfl, by omega⟩
        obtain ⟨v2, o2, hrun2, hred2⟩ :=
          ihr _ b (values.push (.num a)) (operators.push (.sym op.char)) hlex.2 hbr hvr hblkr
        refine ⟨v2, o2, ?_, ?_⟩
        · have hlist : (Expr.bin op ws l r).toks = l.toks ++ ([[op.char]] ++ r.toks) := rfl
          rw [hlist]
          simp only [evalTokens_append]
          simp [evalTokens, hrun1, evalToken_operator, hloop, hrun2, bind, Except.bind]
        · exact reduces_trans (reduces_mono (by omega) hred2)
            (.step op a b values operators _ _ hp (.refl _ _))

/-- The evaluator on the tokens of a well-formed expression returns its value. -/
theorem evaluate_expression_toks {α : Type} (A : Arith α) (e : Expr) (d : α)
    (hlex : e.lexOk = true) (hb : e.binds 1 = true) (hval : e.value A = some d) :
    evaluate_expression A e.toks = .ok d := by
  obtain ⟨v1, o1, hrun, hred⟩ :=
    evalTokens_expr A e 1 d stack.new stack.new hlex hb hval (Or.inl rfl)
  have hdrain := applyWhile_to_blocked A (fun _ => .ok true) 1 v1 o1 _ _
    (fun _ _ _ => rfl) hred (Or.inl rfl)
  simp [evaluate_expression, hrun, drain, hdrain, bind, Except.bind, NorS.getNum]

/-! ## Tokens of the text of an expression -/

theorem isspace_not_numChar (c : Char) (h : isspace c = true) : numChar c = false := by
  have h46 : ('.' : Char).toNat = 46 := by decide
  cases hn : numChar c with
  | false => rfl
  | true =>
    simp only [numChar, Bool.or_eq_true, beq_iff_eq] at hn
    rcases hn with hd | hdot
    · rw [(isdigit_not_others c hd).1] at h
      cases h
    · subst hdot
      exact absurd h (by decide)

theorem boundary_spaces (ws rest : List Char) (hws : ws.all isspace = true)
    (hr : rest = [] ∨ numChar (charAt rest 0) = false) :
    ws ++ rest = [] ∨ numChar (charAt (ws ++ rest) 0) = false := by
  cases ws with
  | nil => simpa using hr
  | cons c cs =>
    right
    simp only [List.all_cons, Bool.and_eq_true] at hws
    exact isspace_not_numChar c hws.1

theorem binop_char_single (op : BinOp) :
    isspace op.char = false ∧ numChar op.char = false ∧ isalpha op.char = false := by
  cases op <;> decide

theorem tokenize_render (e : Expr) :
    ∀ rest : List Char, e.lexOk = true → (rest = [] ∨ numChar (charAt rest 0) = false) →
      tokenize (e.render ++ rest) = e.toks ++ tokenize rest := by
  induction e with
  | lit n ws =>
    intro rest hlex hr
    simp only [Expr.lexOk, Bool.and_eq_true] at hlex
    obtain ⟨c, cs, rfl, hc, hcs⟩ := isNumberLiteral_head n hlex.1
    have hb := boundary_spaces ws rest hlex.2 hr
    have h := tokenize_number c cs (ws ++ rest) hc hcs hb
    have hsp := tokenize_spaces ws rest (by simpa [List.all_eq_true] using hlex.2)
    simp only [Expr.render, Expr.toks, List.append_assoc, List.cons_append] at h ⊢
    rw [h, hsp]
    rfl
  | paren ws1 e ws2 ih =>
    intro rest hlex hr
    simp only [Expr.lexOk, Bool.and_eq_true] at hlex
    have h1 := tokenize_spaces ws1 (e.render ++ (')' :: (ws2 ++ rest)))
      (by simpa [List.all_eq_true] using hlex.1.1)
    have h2 := ih (')' :: (ws2 ++ rest)) hlex.1.2
      (Or.inr (show numChar ')' = false by decide))
    have h3 := tokenize_single ')' (ws2 ++ rest) (by decide) (by decide) (by decide)
    have h4 := tokenize_spaces ws2 rest (by simpa [List.all_eq_true] using hlex.2)
    have h0 := tokenize_single '(' (ws1 ++ (e.render ++ (')' :: (ws2 ++ rest))))
      (by decide) (by decide) (by decide)
    simp only [Expr.render, Expr.toks, List.append_assoc, List.cons_append] at h0 ⊢
    rw [h0, h1, h2, h3, h4]
    simp
  | bin op ws l r ihl ihr =>
    intro rest hlex hr
    simp only [Expr.lexOk, Bool.and_eq_true] at hlex
    obtain ⟨hs, hn, ha⟩ := binop_char_single op
    have h1 := ihl (op.char :: (ws ++ (r.render ++ rest))) hlex.1.2 (Or.inr hn)
    have h2 := tokenize_single op.char (ws ++ (r.render ++ rest)) hs hn ha
    have h3 := tokenize_spaces ws (r.render ++ rest) (by simpa [List.all_eq_true] using hlex.1.1)
    have h4 := ihr rest hlex.2 hr
    simp only [Expr.render, Expr.toks, List.append_assoc, List.cons_append] at h1 ⊢
    rw [h1, h2, h3, h4]

/-- The evaluator on the tokens of the text of a well-formed expression, after
leading white space `ws0`, returns the value of the expression. -/
theorem evaluate_expression_render {α : Type} (A : Arith α) (e : Expr) (ws0 : List Char)
    (d : α) (hws : ws0.all isspace = true) (hlex : e.lexOk = true) (hb : e.binds 1 = true)
    (hval : e.value A = some d) :
    evaluate_expression A (tokenize (ws0 ++ e.render)) = .ok d := by
  have h1 := tokenize_spaces ws0 e.render (by simpa [List.all_eq_true] using hws)
  have h2 := tokenize_render e [] hlex (Or.inl rfl)
  have hnil : tokenize [] = [] := rfl
  rw [List.append_nil, hnil, List.append_nil] at h2
  rw [h1, h2]
  exact evaluate_expression_toks A e d hlex hb hval

/-! ## Fully parenthesized expressions -/

theorem isDigitString_isNumberLiteral (n : Token) (h : isDigitString n = true) :
    isNumberLiteral n = true := by
  cases n with
  | nil => simp [isDigitString] at h
  | cons c cs =>
    simp only [isDigitString, List.isEmpty_cons, Bool.not_false, List.all_cons, Bool.true_and,
      Bool.and_eq_true, List.all_eq_true] at h
    have hc : charAt (c :: cs) 0 = c := rfl
    simp only [isNumberLiteral, hc, h.1, List.all_cons, Bool.true_and, Bool.and_eq_true,
      List.all_eq_true]
    exact ⟨(isdigit_not_others c h.1).2.2, fun x hx => (isdigit_not_others x (h.2 x hx)).2.2⟩

theorem toExpr_render (sp : List Char) (e : FPExpr) :
    ∀ trail : List Char, (e.toExpr sp trail).render = e.render sp ++ trail := by
  induction e with
  | num n => intro trail; rfl
  | node op l r ihl ihr =>
    intro trail
    simp [FPExpr.toExpr, Expr.render, FPExpr.render, ihl sp, ihr sp]

theorem toExpr_lexOk (sp : List Char) (hsp : sp.all isspace = true) (e : FPExpr)
    (he : e.digitLiterals = true) :
    ∀ trail : List Char, trail.all isspace = true → (e.toExpr sp trail).lexOk = true := by
  induction e with
  | num n =>
    intro trail ht
    simp only [FPExpr.digitLiterals] at he
    simp [FPExpr.toExpr, Expr.lexOk, isDigitString_isNumberLiteral n he, ht]
  | node op l r ihl ihr =>
    intro trail ht
    simp only [FPExpr.digitLiterals, Bool.and_eq_true] at he
    simp only [FPExpr.toExpr, Expr.lexOk, Bool.and_eq_true]
    exact ⟨⟨hsp, ⟨hsp, ihl he.1 sp hsp⟩, ihr he.2 sp hsp⟩, ht⟩

theorem toExpr_binds (sp : List Char) (e : FPExpr) (trail : List Char) (p : Int) :
    (e.toExpr sp trail).binds p = true := by
  induction e generalizing trail p with
  | num n => rfl
  | node op l r ihl ihr =>
    simp only [FPExpr.toExpr, Expr.binds, Bool.and_eq_true, decide_eq_true_eq]
    exact ⟨⟨by cases op <;> decide, ihl sp _⟩, ihr sp _⟩

theorem toExpr_value {α : Type} (A : Arith α) (sp : List Char) (e : FPExpr)
    (trail : List Char) : (e.toExpr sp trail).value A = e.value A := by
  induction e generalizing trail with
  | num n => rfl
  | node op l r ihl ihr => simp only [FPExpr.toExpr, Expr.value, FPExpr.value, ihl sp, ihr sp]

theorem evalToken_refused {α : Type} (A : Arith α) (values operators : stack α) (n : Token)
    (err : StodErr) (hn : isNumberLiteral n = true) (hd : A.stod n = .error err) :
    evalToken A values operators n = .error (.stodFailed err) := by
  obtain ⟨c, cs, rfl, hc, _⟩ := isNumberLiteral_head n hn
  have h0 : charAt (c :: cs) 0 = c := rfl
  simp [evalToken, h0, hc, hd]

theorem value_of_not_refused {α : Type} (A : Arith α) (e : Expr) (h : e.refused A = none) :
    ∃ d, e.value A = some d := by
  induction e with
  | lit n ws =>
    simp only [Expr.refused] at h
    cases hs : A.stod n with
    | error err => rw [hs] at h; cases h
    | ok d => exact ⟨d, by simp [Expr.value, hs]⟩
  | paren ws1 e ws2 ih => exact ih h
  | bin op ws l r ihl ihr =>
    simp only [Expr.refused] at h
    cases hl : l.refused A with
    | some err => rw [hl] at h; cases h
    | none =>
      rw [hl] at h
      obtain ⟨a, ha⟩ := ihl hl
      obtain ⟨b, hb⟩ := ihr h
      exact ⟨op.apply A a b, by simp [Expr.value, ha, hb]⟩

theorem refused_of_no_value {α : Type} (A : Arith α) (e : Expr) (h : e.value A = none) :
    ∃ err, e.refused A = some err := by
  cases hr : e.refused A with
  | some err => exact ⟨err, rfl⟩
  | none =>
    obtain ⟨d, hd⟩ := value_of_not_refused A e hr
    rw [hd] at h
    cases h

/-- The token loop on the tokens of a well-formed expression with a literal on
which `stod` throws ends with the exception of the first such literal. -/
theorem evalTokens_refused {α : Type} (A : Arith α) (e : Expr) :
    ∀ (p : Int) (err : StodErr) (values operators : stack α), e.lexOk = true →
      e.binds p = true → e.refused A = some err → Blocked p operators →
      evalTokens A e.toks values operators = .error (.stodFailed err) := by
  induction e with
  | lit n ws =>
    intro p err values operators hlex _ href _
    simp only [Expr.lexOk, Bool.and_eq_true] at hlex
    have hd : A.stod n = .error err := by
      simp only [Expr.refused] at href
      cases hs : A.stod n with
      | error e => rw [hs] at href; cases href; rfl
      | ok x => rw [hs] at href; cases href
    simp [Expr.toks, evalTokens, evalToken_refused A values operators n err hlex.1 hd, bind,
      Except.bind]
  | paren ws1 e ws2 ih =>
    intro p err values operators hlex hb href _
    simp only [Expr.lexOk, Bool.and_eq_true] at hlex
    have hblk : Blocked 1 (operators.push (.sym '(')) :=
      Or.inr ⟨'(', operators.topNode, rfl, by decide⟩
    have hrun := ih 1 err values (operators.push (.sym '(')) hlex.1.2 hb href hblk
    have hlist : (Expr.paren ws1 e ws2).toks = [['(']] ++ (e.toks ++ [[')']]) := rfl
    rw [hlist]
    simp only [evalTokens_append]
    simp [evalTokens, evalToken_open, hrun, bind, Except.bind]
  | bin op ws l r ihl ihr =>
    intro p err values operators hlex hb href hblk
    simp only [Expr.lexOk, Bool.and_eq_true] at hlex
    simp only [Expr.binds, Bool.and_eq_true, decide_eq_true_eq] at hb
    rw [← precedence_level op] at hb
    obtain ⟨⟨hp, hbl⟩, hbr⟩ := hb
    have hblkl : Blocked (precedence op.char) operators := blocked_mono hp hblk
    have hlist : (Expr.bin op ws l r).toks = l.toks ++ ([[op.char]] ++ r.toks) := rfl
    rw [hlist]
    simp only [evalTokens_append]
    simp only [Expr.refused] at href
    cases hl : l.refused A with
    | some errl =>
      rw [hl] at href
      cases href
      simp [ihl _ err values operators hlex.1.2 hbl hl hblkl, bind, Except.bind]
    | none =>
      rw [hl] at href
      obtain ⟨a, hvl⟩ := value_of_not_refused A l hl
      obtain ⟨v1, o1, hrun1, hred1⟩ :=
        evalTokens_expr A l _ a values operators hlex.1.2 hbl hvl hblkl
      have hloop := applyWhile_to_blocked A (topPrecGe [op.char]) (precedence op.char) v1 o1
        _ _ (fun op' o hle => by
          rw [topPrecGe_push]
          have h0 : charAt [op.char] 0 = op.char := rfl
          rw [h0]
          simp [hle]) hred1
        (by
          by_cases hne : operators.topNode = []
          · exact Or.inl hne
          · exact Or.inr (topPrecGe_blocked _ _ hblkl hne))
      have hblkr : Blocked (precedence op.char + 1) (operators.push (.sym op.char)) :=
        Or.inr ⟨op.char, operators.topNode, rfl, by omega⟩
      have hrun2 :=
        ihr _ err (values.push (.num a)) (operators.push (.sym op.char)) hlex.2 hbr href hblkr
      simp [evalTokens, hrun1, evalToken_operator, hloop, hrun2, bind, Except.bind]

/-- The evaluator on the tokens of the text of a well-formed expression, after
leading white space `ws0`: it returns the value of the expression when `stod`
returns a number for every literal, and ends with the exception of the first
literal on which `stod` throws otherwise. -/
theorem evaluate_expression_render_cases {α : Type} (A : Arith α) (e : Expr) (ws0 : List Char)
    (hws : ws0.all isspace = true) (hlex : e.lexOk = true) (hb : e.binds 1 = true) :
    (∀ d, e.value A = some d → evaluate_expression A (tokenize (ws0 ++ e.render)) = .ok d) ∧
    (e.value A = none → ∃ err, e.refused A = some err ∧
      evaluate_expression A (tokenize (ws0 ++ e.render)) = .error (.stodFailed err)) := by
  refine ⟨fun d hval => evaluate_expression_render A e ws0 d hws hlex hb hval, fun hval => ?_⟩
  obtain ⟨err, herr⟩ := refused_of_no_value A e hval
  refine ⟨err, herr, ?_⟩
  have h1 := tokenize_spaces ws0 e.render (by simpa [List.all_eq_true] using hws)
  have h2 := tokenize_render e [] hlex (Or.inl rfl)
  have hnil : tokenize [] = [] := rfl
  rw [List.append_nil, hnil, List.append_nil] at h2
  rw [h1, h2]
  simp [evaluate_expression,
    evalTokens_refused A e 1 err stack.new stack.new hlex hb herr (Or.inl rfl), bind, Except.bind]

theorem toExpr_refused {α : Type} (A : Arith α) (sp : List Char) (e : FPExpr)
    (trail : List Char) : (e.toExpr sp trail).refused A = e.refused A := by
  induction e generalizing trail with
  | num n => rfl
  | node op l r ihl ihr =>
    simp only [FPExpr.toExpr, Expr.refused, FPExpr.refused, ihl sp, ihr sp]

set_option maxRecDepth 100000 in
/-- C1 as stated fails: `(1+10...0)`, the second literal `1` followed by 309
zeros, is a fully parenthesized expression over digit strings, and
`evaluate_expression` on its tokens returns no value: `stod` throws
`std::out_of_range` on the literal, whose value is beyond the range of `double`. -/
theorem C1_long_literal_counterexample :
    (FPExpr.node .add (.num ['1']) (.num longLiteral)).render [] =
      "(1+".toList ++ longLiteral ++ [')'] ∧
    (FPExpr.node .add (.num ['1']) (.num longLiteral)).digitLiterals = true ∧
    doubleOverflow ≤ digitsValue longLiteral ∧
    evaluate_expression intArith (tokenize ("(1+".toList ++ longLiteral ++ [')'])) =
      .error (.stodFailed .outOfRange) := by
  decide

/-- C1 (amended): for every fully parenthesized expression `e`
(`E ::= n | ( E op E )`, the literals `n` non-empty digit strings, `op` one of
`+ - * /`), written with any white space `sp` between its tokens: when `stod`
returns a number for every literal, `evaluate_expression(tokenize(render(e)))`
returns, without an exception, the value of the tree of `e` in the arithmetic of
the number type, the operands taken in the order left, right, and the value of a
literal being what `stod` returns for it; when `stod` throws on a literal, the
call returns no value and ends with the exception of the first such literal in
the order of the text. -/
theorem C1_fully_parenthesized {α : Type} (A : Arith α) (sp : List Char) (e : FPExpr)
    (hsp : sp.all isspace = true) (hlit : e.digitLiterals = true) :
    (∀ d, e.value A = some d → evaluate_expression A (tokenize (e.render sp)) = .ok d) ∧
    (e.value A = none → ∃ err, e.refused A = some err ∧
      evaluate_expression A (tokenize (e.render sp)) = .error (.stodFailed err)) := by
  have h := evaluate_expression_render_cases A (e.toExpr sp []) [] rfl
    (toExpr_lexOk sp hsp e hlit [] rfl) (toExpr_binds sp e [] 1)
  rw [toExpr_render, toExpr_value, toExpr_refused] at h
  simpa using h

/-- Witness of C1 (amended) on `((12*3)-(8/2))`, in integer arithmetic. -/
theorem C1_fully_parenthesized_witness :
    evaluate_expression intArith (tokenize "((12*3)-(8/2))".toList) = .ok 32 :=
  (C1_fully_parenthesized intArith []
    (.node .sub (.node .mul (.num ['1', '2']) (.num ['3'])) (.node .div (.num ['8']) (.num ['2'])))
    (by decide) (by decide)).1 32 (by decide)

/-- C11 as stated fails: `getNum()` on `NorS('a')` throws no exception; the body
is `return value.number;` and the read of the member that was not written has no
defined result. -/
theorem C11_unchecked_counterexample :
    ¬ ∃ e : Err, (NorS.sym 'a' : NorS Int).getNum = .error e ∧ e.isException = true := by
  rintro ⟨e, he, hx⟩
  have h : e = .inactiveMember := by
    simp only [NorS.getNum, Except.error.injEq] at he
    exact he.symm
  subst h
  cases hx

/-- C11 (amended): the accessors are unchecked.  When the tag matches they
return what the constructor stored (`NorS(d).isNum()` is true and `getNum()` is
`d`; `NorS(c).isNum()` is false and `getSym()` is `c`); `getNum()` on `NorS(c)`
and `getSym()` on `NorS(d)` read the member that was not written, without a
test of the flag and without an exception, so their result is not defined. -/
theorem C11_accessors_unchecked {α : Type} (d : α) (c : Char) :
    (NorS.num d).isNum = true ∧ (NorS.num d).getNum = .ok d ∧
    (NorS.sym c : NorS α).isNum = false ∧ (NorS.sym c : NorS α).getSym = .ok c ∧
    (NorS.sym c : NorS α).getNum = .error .inactiveMember ∧
    (NorS.num d).getSym = .error .inactiveMember ∧
    Err.isException .inactiveMember = false :=
  ⟨rfl, rfl, rfl, rfl, rfl, rfl, rfl⟩

/-! ## Validator: the grounds for rejection -/

theorem is_invalid_not_paren (t : Token) (h : is_invalid_token t = true) :
    (t == ['(']) = false ∧ (t == [')']) = false := by
  simp only [is_invalid_token, Bool.or_eq_true, beq_iff_eq] at h
  rcases h with (h | h) | h <;> subst h <;> decide

theorem okFrom_invalid (tokens rest : List Token) (i d : Nat) (t : Token)
    (hmem : t ∈ rest) (h : is_invalid_token t = true) : okFrom tokens i rest d = false := by
  induction rest generalizing i d with
  | nil => simp at hmem
  | cons u r ih =>
    rw [okFrom]
    rcases List.mem_cons.mp hmem with heq | hin
    · subst heq
      obtain ⟨h1, h2⟩ := is_invalid_not_paren t h
      simp [h1, h2, rejects, h]
    · split
      · exact ih _ _ hin
      · split
        · rw [ih _ _ hin]; simp
        · rw [ih _ _ hin]; simp

theorem okFrom_true (tokens rest : List Token) (i d : Nat)
    (hb1 : ∀ k, (rest.take k).count [')'] ≤ d + (rest.take k).count ['('])
    (hb2 : d + rest.count ['('] = rest.count [')'])
    (hrej : ∀ j t, rest.get? j = some t → rejects tokens (i + j) t = false) :
    okFrom tokens i rest d = true := by
  induction rest generalizing i d with
  | nil => simpa [okFrom] using hb2
  | cons t r ih =>
    have hrej' : ∀ j u, r.get? j = some u → rejects tokens (i + 1 + j) u = false := by
      intro j u hj
      have := hrej (j + 1) u (by simpa using hj)
      rwa [show i + (j + 1) = i + 1 + j by omega] at this
    rw [okFrom]
    by_cases ho : (t == ['(']) = true
    · have hto : t = ['('] := by simpa using ho
      subst hto
      rw [if_pos ho]
      apply ih _ _ _ _ hrej'
      · intro k
        have := hb1 (k + 1)
        simp only [List.take_succ_cons, List.count_cons] at this
        simp at this
        omega
      · simp only [List.count_cons] at hb2
        simp at hb2
        omega
    · rw [if_neg ho]
      by_cases hc : (t == [')']) = true
      · have htc : t = [')'] := by simpa using hc
        subst htc
        rw [if_pos hc]
        have h1 := hb1 1
        simp at h1
        have hd : d ≠ 0 := by omega
        simp only [Bool.and_eq_true, bne_iff_ne, ne_eq]
        refine ⟨hd, ?_⟩
        apply ih _ _ _ _ hrej'
        · intro k
          have := hb1 (k + 1)
          simp only [List.take_succ_cons, List.count_cons] at this
          simp at this
          omega
        · simp only [List.count_cons] at hb2
          simp at hb2
          omega
      · rw [if_neg hc]
        have ho' : ¬ t = ['('] := by simpa using ho
        have hc' : ¬ t = [')'] := by simpa using hc
        have hr := hrej 0 t (by simp)
        simp only [Nat.add_zero] at hr
        simp only [hr, Bool.not_false, Bool.true_and]
        apply ih _ _ _ _ hrej'
        · intro k
          have := hb1 (k + 1)
          simp only [List.take_succ_cons, List.count_cons] at this
          simp [ho', hc'] at this
          omega
        · simp only [List.count_cons] at hb2
          simp [ho', hc'] at hb2
          omega

/-- C13: on every token sequence that contains `"@"`, `"++"` or `"--"` at any
position `is_valid_expression` returns false. -/
theorem C13_reserved_tokens (α : Type) (tokens : List Token) (t : Token) (hmem : t ∈ tokens)
    (ht : t = ['@'] ∨ t = ['+', '+'] ∨ t = ['-', '-']) :
    is_valid_expression α tokens = .ok false := by
  have hinv : is_invalid_token t = true := by
    rcases ht with h | h | h <;> subst h <;> decide
  rw [is_valid_expression_eq, okFrom_invalid tokens tokens 0 0 t hmem hinv]

/-- Witness of C13 on the tokens `"1"`, `"@"`, `"2"`. -/
theorem C13_reserved_tokens_witness :
    is_valid_expression Unit [['1'], ['@'], ['2']] = .ok false :=
  C13_reserved_tokens Unit [['1'], ['@'], ['2']] ['@'] (by decide) (Or.inl rfl)

/-- C15: the three structural checks are the only grounds for rejection.
`is_valid_expression` returns true on every token sequence, the empty one
included, whose parentheses are balanced, none of whose tokens is `"@"`, `"++"`
or `"--"`, and in which no operator token is first, last or next to another
operator token; and on no token sequence does it read `tokens[i - 1]` or
`tokens[i + 1]` outside the vector: it always returns a `bool`. -/
theorem C15_only_grounds_for_rejection (α : Type) :
    (∀ tokens : List Token, ¬ Unbalanced tokens →
      (∀ t ∈ tokens, t ≠ ['@'] ∧ t ≠ ['+', '+'] ∧ t ≠ ['-', '-']) →
      (∀ i, i < tokens.length → is_operator (tokens.getD i []) = true →
        i ≠ 0 ∧ i + 1 ≠ tokens.length ∧ is_operator (tokens.getD (i - 1) []) = false ∧
          is_operator (tokens.getD (i + 1) []) = false) →
      is_valid_expression α tokens = .ok true) ∧
    is_valid_expression α [] = .ok true ∧
    (∀ tokens : List Token, ∃ b, is_valid_expression α tokens = .ok b) := by
  refine ⟨?_, rfl, fun tokens => ⟨_, is_valid_expression_eq α tokens⟩⟩
  intro tokens hbal hinv hop
  rw [is_valid_expression_eq]
  congr 1
  apply okFrom_true
  · intro k
    by_contra hk
    exact hbal (Or.inl ⟨k, by omega⟩)
  · by_contra hne
    exact hbal (Or.inr (by omega))
  · intro j t hj
    have hmem : t ∈ tokens := List.get?_mem hj
    obtain ⟨h1, h2, h3⟩ := hinv t hmem
    have hi : is_invalid_token t = false := by simp [is_invalid_token, h1, h2, h3]
    obtain ⟨hlt, hget⟩ := List.get?_eq_some.mp hj
    have htd : tokens.getD j [] = t := by
      simp only [List.getD, show tokens.get? j = some t from hj, Option.getD_some]
    rw [Nat.zero_add]
    unfold rejects
    rw [hi, Bool.or_false]
    cases hopt : is_operator t with
    | false => rfl
    | true =>
      obtain ⟨g1, g2, g3, g4⟩ := hop j hlt (by rw [htd]; exact hopt)
      have g2' : j ≠ tokens.length - 1 := by omega
      rw [g3, g4]
      simp [g1, g2']

/-- Witness of C15 on the tokens of `"( 1 + 2 ) * 3"`. -/
theorem C15_only_grounds_for_rejection_witness :
    is_valid_expression Unit (tokenize "( 1 + 2 ) * 3".toList) = .ok true :=
  (C15_only_grounds_for_rejection Unit).1 (tokenize "( 1 + 2 ) * 3".toList)
    (by
      intro h
      have hv : okFrom (tokenize "( 1 + 2 ) * 3".toList) 0 (tokenize "( 1 + 2 ) * 3".toList) 0
          = true := by decide
      rw [okFrom_unbalanced _ h] at hv
      cases hv)
    (by decide) (by decide)

/-! ## Evaluator: tags on the stacks -/

theorem numbersOnly_new {α : Type} : numbersOnly (stack.new : stack α) := by
  intro x hx
  simp [stack.new] at hx

theorem symbolsOnly_new {α : Type} : symbolsOnly (stack.new : stack α) := by
  intro x hx
  simp [stack.new] at hx

theorem numbersOnly_push {α : Type} (s : stack α) (d : α) (h : numbersOnly s) :
    numbersOnly (s.push (.num d)) := by
  intro x hx
  rcases List.mem_cons.mp hx with rfl | hm
  · rfl
  · exact h x hm

theorem symbolsOnly_push {α : Type} (s : stack α) (c : Char) (h : symbolsOnly s) :
    symbolsOnly (s.push (.sym c)) := by
  intro x hx
  rcases List.mem_cons.mp hx with rfl | hm
  · rfl
  · exact h x hm

theorem numbersOnly_applySwitch {α : Type} (A : Arith α) (op : Char) (a b : α) (s : stack α)
    (h : numbersOnly s) : numbersOnly (applySwitch A op a b s) := by
  unfold applySwitch
  repeat' split
  all_goals first | exact numbersOnly_push _ _ h | exact h

/-- What `pop` does on a stack of one tag: the value popped has the tag and the
rest keeps it. -/
theorem pop_cases {α : Type} (s : stack α) :
    (s.topNode = [] ∧ s.pop = .error .stackEmpty) ∨
      ∃ x rest, s.topNode = x :: rest ∧ s.pop = .ok (x, ⟨rest, s.length - 1⟩) := by
  obtain ⟨nodes, len⟩ := s
  cases nodes with
  | nil => exact Or.inl ⟨rfl, rfl⟩
  | cons x rest => exact Or.inr ⟨x, rest, rfl, rfl⟩

theorem getNum_of_isNum {α : Type} (x : NorS α) (h : x.isNum = true) :
    ∃ d, x = .num d ∧ x.getNum = .ok d := by
  cases x with
  | num d => exact ⟨d, rfl, rfl⟩
  | sym c => cases h

theorem getSym_of_not_isNum {α : Type} (x : NorS α) (h : x.isNum = false) :
    ∃ c, x = .sym c ∧ x.getSym = .ok c := by
  cases x with
  | num d => cases h
  | sym c => exact ⟨c, rfl, rfl⟩

/-- The block `applyTop` on stacks with the right tags: it fails only with
"Stack is empty", and otherwise pops one symbol from `operators` and leaves the tags
right. -/
theorem applyTop_tags {α : Type} (A : Arith α) (values operators : stack α)
    (hv : numbersOnly values) (ho : symbolsOnly operators) :
    applyTop A values operators = .error .stackEmpty ∨
      ∃ c rest values', operators.topNode = .sym c :: rest ∧ numbersOnly values' ∧
        applyTop A values operators = .ok (values', ⟨rest, operators.length - 1⟩) := by
  unfold applyTop
  rcases pop_cases operators with ⟨_, hp⟩ | ⟨x, rest, hx, hp⟩
  · left; simp [hp, bind, Except.bind]
  · obtain ⟨c, rfl, hc⟩ := getSym_of_not_isNum x (ho x (by rw [hx]; exact List.mem_cons_self _ _))
    rcases pop_cases values with ⟨_, hpb⟩ | ⟨xb, restb, hxb, hpb⟩
    · left; simp [hp, hc, hpb, bind, Except.bind]
    · obtain ⟨b, rfl, hb⟩ :=
        getNum_of_isNum xb (hv xb (by rw [hxb]; exact List.mem_cons_self _ _))
      rcases pop_cases (⟨restb, values.length - 1⟩ : stack α) with ⟨_, hpa⟩ | ⟨xa, resta, hxa, hpa⟩
      · left; simp [hp, hc, hpb, hb, hpa, bind, Except.bind]
      · simp only at hxa
        have hmem : xa ∈ values.topNode := by
          rw [hxb, hxa]; exact List.mem_cons_of_mem _ (List.mem_cons_self _ _)
        obtain ⟨a, rfl, ha⟩ := getNum_of_isNum xa (hv xa hmem)
        right
        refine ⟨c, rest, applySwitch A c a b ⟨resta, values.length - 1 - 1⟩, hx, ?_, ?_⟩
        · apply numbersOnly_applySwitch
          intro y hy
          exact hv y (by rw [hxb, hxa]; exact List.mem_cons_of_mem _ (List.mem_cons_of_mem _ hy))
        · simp [hp, hc, hpb, hb, hpa, ha, bind, Except.bind, pure, Except.pure]

theorem symbolsOnly_tail {α : Type} (operators : stack α) (x : NorS α) (rest : List (NorS α))
    (len : Int) (h : symbolsOnly operators) (hx : operators.topNode = x :: rest) :
    symbolsOnly (⟨rest, len⟩ : stack α) := by
  intro y hy
  exact h y (by rw [hx]; exact List.mem_cons_of_mem _ hy)

theorem applyWhile_tags {α : Type} (A : Arith α) (cond : stack α → Except Err Bool)
    (hcond : condReadsSymbol cond) (fuel : Nat) (values operators : stack α)
    (hv : numbersOnly values) (ho : symbolsOnly operators) :
    applyWhile A cond fuel values operators = .error .stackEmpty ∨
      ∃ values' operators', applyWhile A cond fuel values operators = .ok (values', operators') ∧
        numbersOnly values' ∧ symbolsOnly operators' := by
  induction fuel generalizing values operators with
  | zero => exact Or.inr ⟨values, operators, rfl, hv, ho⟩
  | succ f ih =>
    rw [applyWhile]
    cases hnodes : operators.topNode with
    | nil =>
      right
      exact ⟨values, operators, by simp [stack.empty, hnodes, pure, Except.pure], hv, ho⟩
    | cons t rest =>
      have hne : operators.empty = false := by simp [stack.empty, hnodes]
      obtain ⟨b, hb⟩ := hcond operators ho (by rw [hnodes]; simp)
      cases b with
      | false =>
        right
        exact ⟨values, operators, by simp [hne, hb, bind, Except.bind, pure, Except.pure], hv, ho⟩
      | true =>
        rcases applyTop_tags A values operators hv ho with herr | ⟨c, r, v', hx, hv', hok⟩
        · left
          simp [hne, hb, herr, bind, Except.bind]
        · have ho' := symbolsOnly_tail operators _ r (operators.length - 1) ho hx
          rcases ih v' _ hv' ho' with h | ⟨v2, o2, h, hv2, ho2⟩
          · left
            simp [hne, hb, hok, h, bind, Except.bind]
          · right
            exact ⟨v2, o2, by simp [hne, hb, hok, h, bind, Except.bind], hv2, ho2⟩

theorem gettop_symbol {α : Type} (operators : stack α) (ho : symbolsOnly operators)
    (hne : operators.topNode ≠ []) :
    ∃ c rest, operators.topNode = .sym c :: rest ∧ operators.gettop = .ok (.sym c) := by
  obtain ⟨nodes, len⟩ := operators
  cases nodes with
  | nil => exact absurd rfl hne
  | cons x rest =>
    obtain ⟨c, rfl, _⟩ := getSym_of_not_isNum x (ho x (List.mem_cons_self _ _))
    exact ⟨c, rest, rfl, rfl⟩

theorem condReadsSymbol_topNotParen {α : Type} :
    condReadsSymbol (topNotParen : stack α → Except Err Bool) := by
  intro operators ho hne
  obtain ⟨c, rest, _, hg⟩ := gettop_symbol operators ho hne
  exact ⟨c != '(', by simp [topNotParen, hg, NorS.getSym, bind, Except.bind, pure, Except.pure]⟩

theorem condReadsSymbol_topPrecGe {α : Type} (token : Token) :
    condReadsSymbol (topPrecGe token : stack α → Except Err Bool) := by
  intro operators ho hne
  obtain ⟨c, rest, _, hg⟩ := gettop_symbol operators ho hne
  exact ⟨decide (precedence c ≥ precedence (charAt token 0)),
    by simp [topPrecGe, hg, NorS.getSym, bind, Except.bind, pure, Except.pure]⟩

theorem condReadsSymbol_true {α : Type} :
    condReadsSymbol (fun _ : stack α => (.ok true : Except Err Bool)) :=
  fun _ _ _ => ⟨true, rfl⟩

/-- One token of the evaluator on stacks with the right tags: either a C++
exception, or new stacks with the right tags. -/
theorem evalToken_tags {α : Type} (A : Arith α) (values operators : stack α) (token : Token)
    (hv : numbersOnly values) (ho : symbolsOnly operators) :
    (∃ e, evalToken A values operators token = .error e ∧ e.isException = true) ∨
      ∃ values' operators', evalToken A values operators token = .ok (values', operators') ∧
        numbersOnly values' ∧ symbolsOnly operators' := by
  unfold evalToken
  split
  · cases hs : A.stod token with
    | error e => exact Or.inl ⟨_, rfl, rfl⟩
    | ok d => exact Or.inr ⟨_, _, rfl, numbersOnly_push _ _ hv, ho⟩
  · split
    · split
      · exact Or.inr ⟨_, _, rfl, numbersOnly_push _ _ hv, ho⟩
      · split
        · exact Or.inr ⟨_, _, rfl, numbersOnly_push _ _ hv, ho⟩
        · exact Or.inl ⟨_, rfl, rfl⟩
    · split
      · exact Or.inr ⟨_, _, rfl, hv, symbolsOnly_push _ _ ho⟩
      · split
        · rcases applyWhile_tags A topNotParen condReadsSymbol_topNotParen
            operators.topNode.length values operators hv ho with h | ⟨v1, o1, h, hv1, ho1⟩
          · exact Or.inl ⟨.stackEmpty, by simp [h, bind, Except.bind], rfl⟩
          · rcases pop_cases o1 with ⟨hnil, _⟩ | ⟨x, rest, hx, hp⟩
            · refine Or.inl ⟨.mismatchedParentheses, ?_, rfl⟩
              simp [h, bind, Except.bind, stack.empty, hnil, throw, throwThe, MonadExceptOf.throw]
            · refine Or.inr ⟨v1, ⟨rest, o1.length - 1⟩, ?_, hv1,
                symbolsOnly_tail o1 x rest _ ho1 hx⟩
              simp [h, bind, Except.bind, stack.empty, hx, hp, pure, Except.pure]
        · rcases applyWhile_tags A (topPrecGe token) (condReadsSymbol_topPrecGe token)
            operators.topNode.length values operators hv ho with h | ⟨v1, o1, h, hv1, ho1⟩
          · exact Or.inl ⟨.stackEmpty, by simp [h, bind, Except.bind], rfl⟩
          · exact Or.inr ⟨v1, o1.push (.sym (charAt token 0)),
              by simp [h, bind, Except.bind, pure, Except.pure], hv1,
              symbolsOnly_push _ _ ho1⟩

theorem evalTokens_tags {α : Type} (A : Arith α) (tokens : List Token)
    (values operators : stack α) (hv : numbersOnly values) (ho : symbolsOnly operators) :
    (∃ e, evalTokens A tokens values operators = .error e ∧ e.isException = true) ∨
      ∃ values' operators', evalTokens A tokens values operators = .ok (values', operators') ∧
        numbersOnly values' ∧ symbolsOnly operators' := by
  induction tokens generalizing values operators with
  | nil => exact Or.inr ⟨values, operators, rfl, hv, ho⟩
  | cons t r ih =>
    rw [evalTokens]
    rcases evalToken_tags A values operators t hv ho with ⟨e, he, hx⟩ | ⟨v1, o1, h, hv1, ho1⟩
    · exact Or.inl ⟨e, by simp [he, bind, Except.bind], hx⟩
    · rcases ih v1 o1 hv1 ho1 with ⟨e, he, hx⟩ | ⟨v2, o2, h2, hv2, ho2⟩
      · exact Or.inl ⟨e, by simp [h, he, bind, Except.bind], hx⟩
      · exact Or.inr ⟨v2, o2, by simp [h, h2, bind, Except.bind], hv2, ho2⟩

theorem finalStacks_tags {α : Type} (A : Arith α) (tokens : List Token) :
    (∃ e, finalStacks A tokens = .error e ∧ e.isException = true) ∨
      ∃ values operators, finalStacks A tokens = .ok (values, operators) ∧
        numbersOnly values ∧ symbolsOnly operators := by
  unfold finalStacks
  rcases evalTokens_tags A tokens stack.new stack.new numbersOnly_new symbolsOnly_new with
    ⟨e, he, hx⟩ | ⟨v1, o1, h, hv1, ho1⟩
  · exact Or.inl ⟨e, by simp [he, bind, Except.bind], hx⟩
  · rcases applyWhile_tags A (fun _ => .ok true) condReadsSymbol_true o1.topNode.length v1 o1
      hv1 ho1 with h2 | ⟨v2, o2, h2, hv2, ho2⟩
    · exact Or.inl ⟨.stackEmpty, by simp [h, drain, h2, bind, Except.bind], rfl⟩
    · exact Or.inr ⟨v2, o2, by simp [h, drain, h2, bind, Except.bind], hv2, ho2⟩

theorem evaluate_expression_final {α : Type} (A : Arith α) (tokens : List Token) :
    evaluate_expression A tokens =
      (finalStacks A tokens >>= fun st => st.1.pop >>= fun r => r.1.getNum) := by
  unfold evaluate_expression finalStacks
  simp only [bind, Except.bind]
  cases evalTokens A tokens stack.new stack.new with
  | error e => rfl
  | ok st =>
    obtain ⟨v, o⟩ := st
    cases drain A v o with
    | error e => rfl
    | ok st2 =>
      obtain ⟨v2, o2⟩ := st2
      cases v2.pop with
      | error e => rfl
      | ok r => rfl

theorem validStacks_tags (α : Type) (tokens : List Token) (fuel i : Nat) (p : stack α)
    (hp : ∀ x ∈ p.topNode, x = .sym '(') :
    ∀ s ∈ validStacks α tokens fuel i p, ∀ x ∈ s.topNode, x = NorS.sym '(' := by
  induction fuel generalizing i p with
  | zero =>
    intro s hs
    simp only [validStacks, List.mem_singleton] at hs
    subst hs
    exact hp
  | succ f ih =>
    intro s hs
    rw [validStacks, List.mem_cons] at hs
    rcases hs with rfl | hs
    · exact hp
    · split at hs
      · split at hs
        · simp at hs
        · split at hs
          · refine ih _ _ ?_ s hs
            intro x hx
            rcases List.mem_cons.mp hx with rfl | hm
            · rfl
            · exact hp x hm
          · split at hs
            · split at hs
              · simp at hs
              · split at hs
                · rename_i v p' hpop
                  refine ih _ _ ?_ s hs
                  rcases pop_cases p with ⟨_, h⟩ | ⟨y, rest, hy, h⟩
                  · rw [h] at hpop; cases hpop
                  · rw [h] at hpop
                    cases hpop
                    intro x hx
                    exact hp x (by rw [hy]; exact List.mem_cons_of_mem _ hx)
                · simp at hs
            · split at hs
              · exact ih _ _ hp s hs
              · simp at hs
      · simp at hs

/-- C12 as stated fails: the tokens `"1"`, `"2"` (those of `"1 2"`) leave two
values on the value stack and `evaluate_expression` returns the top one, 2. -/
theorem C12_leftover_values_counterexample :
    tokenize "1 2".toList = [['1'], ['2']] ∧
    finalStacks intArith [['1'], ['2']] = .ok (⟨[.num 2, .num 1], 2⟩, stack.new) ∧
    evaluate_expression intArith [['1'], ['2']] = .ok 2 := by
  decide

/-- C12 (amended): `evaluate_expression` returns the value on top of the value
stack as it is after all tokens are consumed and all remaining operators applied.
If that stage throws, the exception is the result; with no value left it throws
"Stack is empty"; with one value or more left it returns the top value, whatever
lies under it. -/
theorem C12_result_is_top_value {α : Type} (A : Arith α) (tokens : List Token) :
    (∀ e, finalStacks A tokens = .error e → evaluate_expression A tokens = .error e) ∧
    (∀ values operators, finalStacks A tokens = .ok (values, operators) →
      values.topNode = [] → evaluate_expression A tokens = .error .stackEmpty) ∧
    (∀ values operators, finalStacks A tokens = .ok (values, operators) →
      values.topNode ≠ [] →
      ∃ d rest, values.topNode = .num d :: rest ∧ evaluate_expression A tokens = .ok d) := by
  rw [evaluate_expression_final]
  refine ⟨?_, ?_, ?_⟩
  · intro e he
    simp [he, bind, Except.bind]
  · intro values operators hf hnil
    rcases pop_cases values with ⟨_, hp⟩ | ⟨x, rest, hx, _⟩
    · simp [hf, hp, bind, Except.bind]
    · rw [hx] at hnil; cases hnil
  · intro values operators hf hne
    rcases finalStacks_tags A tokens with ⟨e, he, _⟩ | ⟨v, o, h, hv, _⟩
    · rw [he] at hf; cases hf
    · rw [h] at hf
      cases hf
      rcases pop_cases values with ⟨hnil, _⟩ | ⟨x, rest, hx, hp⟩
      · exact absurd hnil hne
      · obtain ⟨d, rfl, hd⟩ := getNum_of_isNum x (hv x (by rw [hx]; exact List.mem_cons_self _ _))
        exact ⟨d, rest, hx, by simp [h, hp, hd, bind, Except.bind]⟩

/-- Witness of C12 (amended) on the tokens `"1"`, `"2"`, `"3"`: three values are
left and the top one is returned. -/
theorem C12_result_is_top_value_witness :
    ∃ d rest, (⟨[.num 3, .num 2, .num 1], 3⟩ : stack Int).topNode = .num d :: rest ∧
      evaluate_expression intArith [['1'], ['2'], ['3']] = .ok d :=
  (C12_result_is_top_value intArith [['1'], ['2'], ['3']]).2.2
    ⟨[.num 3, .num 2, .num 1], 3⟩ stack.new (by decide) (by decide)

/-- C20: tag discipline.  Whatever the tokens, after every prefix of the token
loop, after any number of iterations of an inner loop, and after the last loop,
every element of the value stack is number-tagged and every element of the
operator stack is symbol-tagged; so no `getNum()` or `getSym()` of
`evaluate_expression` reads the member that was not written.  The stack
`parentheses` of `is_valid_expression` holds nothing but the symbol `'('`, and
that function calls neither accessor. -/
theorem C20_tag_discipline {α : Type} (A : Arith α) (tokens : List Token) :
    (∀ k values operators,
      evalTokens A (tokens.take k) stack.new stack.new = .ok (values, operators) →
      numbersOnly values ∧ symbolsOnly operators) ∧
    (∀ (cond : stack α → Except Err Bool) (k : Nat) (values operators values' operators' : stack α),
      condReadsSymbol cond → numbersOnly values → symbolsOnly operators →
      applyWhile A cond k values operators = .ok (values', operators') →
      numbersOnly values' ∧ symbolsOnly operators') ∧
    (∀ values operators, finalStacks A tokens = .ok (values, operators) →
      numbersOnly values ∧ symbolsOnly operators) ∧
    evaluate_expression A tokens ≠ .error .inactiveMember ∧
    (∀ s ∈ validStacks α tokens tokens.length 0 stack.new, symbolsOnly s) ∧
    is_valid_expression α tokens ≠ .error .inactiveMember := by
  refine ⟨?_, ?_, ?_, ?_, ?_, ?_⟩
  · intro k values operators h
    rcases evalTokens_tags A (tokens.take k) stack.new stack.new numbersOnly_new
      symbolsOnly_new with ⟨e, he, _⟩ | ⟨v, o, hok, hv, ho⟩
    · rw [he] at h; cases h
    · rw [hok] at h; cases h; exact ⟨hv, ho⟩
  · intro cond k values operators values' operators' hc hv ho h
    rcases applyWhile_tags A cond hc k values operators hv ho with he | ⟨v, o, hok, hv', ho'⟩
    · rw [he] at h; cases h
    · rw [hok] at h; cases h; exact ⟨hv', ho'⟩
  · intro values operators h
    rcases finalStacks_tags A tokens with ⟨e, he, _⟩ | ⟨v, o, hok, hv, ho⟩
    · rw [he] at h; cases h
    · rw [hok] at h; cases h; exact ⟨hv, ho⟩
  · rw [evaluate_expression_final]
    rcases finalStacks_tags A tokens with ⟨e, he, hx⟩ | ⟨v, o, hok, hv, ho⟩
    · intro h
      rw [he] at h
      simp only [bind, Except.bind, Except.error.injEq] at h
      subst h
      cases hx
    · rcases pop_cases v with ⟨_, hp⟩ | ⟨x, rest, hx, hp⟩
      · simp [hok, hp, bind, Except.bind]
      · obtain ⟨d, rfl, hd⟩ := getNum_of_isNum x (hv x (by rw [hx]; exact List.mem_cons_self _ _))
        simp [hok, hp, hd, bind, Except.bind]
  · intro s hs x hx
    have := validStacks_tags α tokens tokens.length 0 stack.new
      (by intro y hy; simp [stack.new] at hy) s hs x hx
    rw [this]
    rfl
  · rw [is_valid_expression_eq]
    intro h
    cases h

/-! ## Evaluator: tokens that are neither numbers nor operators -/

/-- C16 (the code does otherwise): on the tokens of `"1 2 ( 3 # 4 )"`, which
`is_valid_expression` accepts and in which no prefix holds more `")"` than `"("`,
`evaluate_expression` throws "Mismatched parentheses".  The token `"#"` has
precedence 0, the precedence of the marker `'('`, so the loop for an operator
token pops the marker; the loop for `")"` tests the top against `'('`, the loop
for an operator token does not. -/
theorem C16_mismatched_on_balanced {α : Type} (A : Arith α) (v1 v2 v3 v4 : α)
    (h1 : A.stod ['1'] = .ok v1) (h2 : A.stod ['2'] = .ok v2) (h3 : A.stod ['3'] = .ok v3)
    (h4 : A.stod ['4'] = .ok v4) :
    tokenize "1 2 ( 3 # 4 )".toList = [['1'], ['2'], ['('], ['3'], ['#'], ['4'], [')']] ∧
    is_valid_expression α [['1'], ['2'], ['('], ['3'], ['#'], ['4'], [')']] = .ok true ∧
    (∀ k, ([['1'], ['2'], ['('], ['3'], ['#'], ['4'], [')']].take k).count [')'] ≤
      ([['1'], ['2'], ['('], ['3'], ['#'], ['4'], [')']].take k).count ['(']) ∧
    evaluate_expression A [['1'], ['2'], ['('], ['3'], ['#'], ['4'], [')']] =
      .error .mismatchedParentheses := by
  have hv : okFrom [['1'], ['2'], ['('], ['3'], ['#'], ['4'], [')']] 0
      [['1'], ['2'], ['('], ['3'], ['#'], ['4'], [')']] 0 = true := by decide
  refine ⟨by decide, by rw [is_valid_expression_eq, hv], ?_, ?_⟩
  · intro k
    have := (okFrom_balanced _ _ 0 0 hv).1 k
    omega
  · have e1 : ∀ v o : stack α, evalToken A v o ['1'] = .ok (v.push (.num v1), o) :=
      fun v o => evalToken_literal A v o _ v1 (by decide) h1
    have e2 : ∀ v o : stack α, evalToken A v o ['2'] = .ok (v.push (.num v2), o) :=
      fun v o => evalToken_literal A v o _ v2 (by decide) h2
    have e3 : ∀ v o : stack α, evalToken A v o ['3'] = .ok (v.push (.num v3), o) :=
      fun v o => evalToken_literal A v o _ v3 (by decide) h3
    have e4 : ∀ v o : stack α, evalToken A v o ['4'] = .ok (v.push (.num v4), o) :=
      fun v o => evalToken_literal A v o _ v4 (by decide) h4
    have eh : ∀ v o : stack α, evalToken A v o ['#'] =
        (applyWhile A (topPrecGe ['#']) o.topNode.length v o >>= fun st =>
          .ok (st.1, st.2.push (.sym '#'))) := fun v o => rfl
    simp only [evaluate_expression, evalTokens, e1, e2, e3, e4, eh, evalToken_open,
      evalToken_close, bind, Except.bind]
    rfl

/-- Witness of C16 in integer arithmetic. -/
theorem C16_mismatched_on_balanced_witness :
    evaluate_expression intArith (tokenize "1 2 ( 3 # 4 )".toList) =
      .error .mismatchedParentheses := by
  have h := C16_mismatched_on_balanced intArith 1 2 3 4 (by decide) (by decide) (by decide)
    (by decide)
  rw [h.1]
  exact h.2.2.2

/-! ## Tokenizer: numeric tokens -/

theorem tokenize_dot_number (cs rest : List Char) (hd : isdigit (charAt cs 0) = true)
    (hcs : ∀ x ∈ cs, numChar x = true) (hr : rest = [] ∨ numChar (charAt rest 0) = false) :
    tokenize ('.' :: cs ++ rest) = ('.' :: cs) :: tokenize rest := by
  have hrun : (('.' :: cs) ++ rest).takeWhile numChar = '.' :: cs := by
    apply takeWhile_append_stop _ _ _ _ hr
    intro x hx
    rcases List.mem_cons.mp hx with h | h
    · rw [h]; decide
    · exact hcs x h
  have hrun' : ('.' :: (cs ++ rest)).takeWhile numChar = '.' :: cs := by simpa using hrun
  have h1 : charAt ('.' :: (cs ++ rest)) 1 = charAt cs 0 := by
    cases cs with
    | nil => exact absurd hd (by decide)
    | cons c cs' => rfl
  rw [List.cons_append, tokenize_cons]
  have h0 : charAt ('.' :: (cs ++ rest)) 0 = '.' := rfl
  have hsp : isspace '.' = false := by decide
  have hdg : isdigit '.' = false := by decide
  simp only [tokStep, h0, h1, hsp, hdg, hd, beq_self_eq_true, Bool.and_self, Bool.or_true,
    Bool.false_eq_true, if_false, if_true, hrun']
  simp

theorem evaluate_expression_dot {α : Type} (A : Arith α) (cs : List Char) :
    evaluate_expression A ['.' :: cs] = .error .stackEmpty := by
  have h0 : charAt ('.' :: cs) 0 = '.' := rfl
  have e : evalToken A stack.new stack.new ('.' :: cs) =
      .ok (stack.new, stack.new.push (.sym '.')) := by
    have hdg : isdigit '.' = false := by decide
    have hal : isalpha '.' = false := by decide
    have hm : ('.' == '-') = false := by decide
    have ho : ('.' :: cs == ['(']) = false := by
      cases hc : ('.' :: cs == ['(']) with
      | false => rfl
      | true =>
        simp at hc
    have hc : ('.' :: cs == [')']) = false := by
      cases hc : ('.' :: cs == [')']) with
      | false => rfl
      | true =>
        simp at hc
    unfold evalToken
    simp only [h0, hdg, hal, hm, ho, hc, Bool.false_and, Bool.or_self, Bool.false_eq_true,
      if_false]
    rfl
  simp only [evaluate_expression, evalTokens, e, bind, Except.bind]
  rfl

/-- C18 (the code does otherwise): for a non-empty digit string `d2` the
tokenizer emits `"." + d2` as one numeric token, and `evaluate_expression` of that
token throws "Stack is empty": its test for a number looks for a digit (or a
minus) in front, so the token is pushed as an operator `'.'`.  So `".5"` is one
token and does not evaluate to 0.5.  With a non-empty `d1` in front the token
`d1 + "." + d2` evaluates to what `stod` returns for it. -/
theorem C18_leading_dot_not_a_number {α : Type} (A : Arith α) (d1 d2 : List Char) (v : α)
    (h1 : isDigitString d1 = true) (h2 : isDigitString d2 = true)
    (hv : A.stod (d1 ++ ['.'] ++ d2) = .ok v) :
    tokenize ('.' :: d2) = ['.' :: d2] ∧
    evaluate_expression A (tokenize ('.' :: d2)) = .error .stackEmpty ∧
    tokenize ".5".toList = [".5".toList] ∧
    evaluate_expression A (tokenize ".5".toList) = .error .stackEmpty ∧
    tokenize (d1 ++ ['.'] ++ d2) = [d1 ++ ['.'] ++ d2] ∧
    evaluate_expression A (tokenize (d1 ++ ['.'] ++ d2)) = .ok v := by
  have hd2 : isdigit (charAt d2 0) = true ∧ ∀ x ∈ d2, numChar x = true := by
    cases d2 with
    | nil => simp [isDigitString] at h2
    | cons c cs =>
      simp only [isDigitString, List.isEmpty_cons, Bool.not_false, List.all_cons, Bool.true_and,
        Bool.and_eq_true, List.all_eq_true] at h2
      refine ⟨h2.1, fun x hx => ?_⟩
      rcases List.mem_cons.mp hx with h | h
      · rw [h]; exact (isdigit_not_others c h2.1).2.2
      · exact (isdigit_not_others x (h2.2 x h)).2.2
  have hnil : tokenize [] = [] := rfl
  have ht : tokenize ('.' :: d2) = ['.' :: d2] := by
    have h := tokenize_dot_number d2 [] hd2.1 hd2.2 (Or.inl rfl)
    simpa [hnil] using h
  have ht5 : tokenize ".5".toList = [".5".toList] := by decide
  have hlit : isNumberLiteral (d1 ++ ['.'] ++ d2) = true := by
    cases d1 with
    | nil => simp [isDigitString] at h1
    | cons c cs =>
      simp only [isDigitString, List.isEmpty_cons, Bool.not_false, List.all_cons, Bool.true_and,
        Bool.and_eq_true, List.all_eq_true] at h1
      have hc : charAt (c :: cs ++ ['.'] ++ d2) 0 = c := rfl
      simp only [isNumberLiteral, hc, h1.1, Bool.true_and, List.all_eq_true]
      intro x hx
      simp only [List.cons_append, List.append_assoc, List.mem_cons, List.mem_append,
        List.not_mem_nil, or_false, false_or] at hx
      rcases hx with h | h | h | h
      · rw [h]; exact (isdigit_not_others c h1.1).2.2
      · exact (isdigit_not_others x (h1.2 x h)).2.2
      · rw [h]; decide
      · exact hd2.2 x h
  have htd : tokenize (d1 ++ ['.'] ++ d2) = [d1 ++ ['.'] ++ d2] := by
    obtain ⟨c, cs, hn, hc, hcs⟩ := isNumberLiteral_head _ hlit
    rw [hn]
    have h := tokenize_number c cs [] hc hcs (Or.inl rfl)
    simpa [hnil] using h
  refine ⟨ht, ?_, ht5, ?_, htd, ?_⟩
  · rw [ht]; exact evaluate_expression_dot A d2
  · rw [ht5]; exact evaluate_expression_dot A ['5']
  · rw [htd]
    simp only [evaluate_expression, evalTokens, evalToken_literal A _ _ _ v hlit hv, bind,
      Except.bind]
    rfl

/-- Witness of C18 at `d1 = "12"`, `d2 = "0"`, in integer arithmetic. -/
theorem C18_leading_dot_not_a_number_witness :
    evaluate_expression intArith (tokenize ".5".toList) = .error .stackEmpty :=
  (C18_leading_dot_not_a_number intArith ['1', '2'] ['0'] 12 (by decide) (by decide)
    (by decide)).2.2.2.1

theorem numChar_not_isspace (c : Char) (h : numChar c = true) : isspace c = false := by
  cases hs : isspace c with
  | false => rfl
  | true => rw [isspace_not_numChar c hs] at h; cases h

theorem wellShaped_run (p : Char → Bool) (c : Char) (cs : List Char) (hc : p c = true)
    (hsp : ∀ x, p x = true → isspace x = false)
    (hshape : ∀ t : Token, t.all p = true → t.all numChar = true ∨ t.all isalpha = true) :
    WellShaped ((c :: cs).takeWhile p) ∧
      ((c :: cs).takeWhile p).filter (fun x => !isspace x) = (c :: cs).takeWhile p := by
  have hall : ∀ x ∈ (c :: cs).takeWhile p, p x = true := fun x hx => List.mem_takeWhile_imp hx
  refine ⟨⟨?_, fun x hx => hsp x (hall x hx), ?_⟩, ?_⟩
  · simp [List.takeWhile_cons, hc]
  · rcases hshape _ (List.all_eq_true.mpr hall) with h | h
    · exact Or.inl h
    · exact Or.inr (Or.inl h)
  · rw [List.filter_eq_self]
    intro x hx
    simp [hsp x (hall x hx)]

theorem tokStep_spec (c : Char) (cs : List Char) :
    (tokStep (c :: cs)).1.flatten =
        ((c :: cs).take (tokStep (c :: cs)).2).filter (fun x => !isspace x) ∧
      ∀ t ∈ (tokStep (c :: cs)).1, WellShaped t := by
  unfold tokStep
  have h0 : charAt (c :: cs) 0 = c := rfl
  rw [h0]
  by_cases hs : isspace c = true
  · simp [hs]
  · rw [if_neg hs]
    have hs' : isspace c = false := by simpa using hs
    by_cases hd : (isdigit c || (c == '.' && isdigit (charAt (c :: cs) 1))) = true
    · rw [if_pos hd]
      have hn : numChar c = true := by
        simp only [numChar, Bool.or_eq_true, Bool.and_eq_true] at hd ⊢
        rcases hd with h | h
        · exact Or.inl h
        · exact Or.inr h.1
      obtain ⟨hw, hf⟩ := wellShaped_run numChar c cs hn numChar_not_isspace
        (fun t ht => Or.inl ht)
      simp only [List.flatten_cons, List.flatten_nil, List.append_nil, take_takeWhile_length,
        List.mem_singleton, forall_eq]
      exact ⟨hf.symm, hw⟩
    · rw [if_neg hd]
      by_cases ha : isalpha c = true
      · rw [if_pos ha]
        obtain ⟨hw, hf⟩ := wellShaped_run isalpha c cs ha
          (fun x hx => (isalpha_not_isdigit x hx).2.2.1) (fun t ht => Or.inr ht)
        simp only [List.flatten_cons, List.flatten_nil, List.append_nil, take_takeWhile_length,
          List.mem_singleton, forall_eq]
        exact ⟨hf.symm, hw⟩
      · rw [if_neg ha]
        have ha' : isalpha c = false := by simpa using ha
        simp only [List.flatten_cons, List.flatten_nil, List.append_nil, List.mem_singleton,
          forall_eq]
        refine ⟨by simp [hs'], by simp, fun x hx => ?_, ?_⟩
        · rw [List.mem_singleton.mp hx]; exact hs'
        · cases hn : numChar c with
          | true => exact Or.inl (by simp [hn])
          | false => exact Or.inr (Or.inr ⟨c, rfl, hn, ha'⟩)

theorem tokenize_spec (n : Nat) :
    ∀ s : List Char, s.length ≤ n →
      (tokenize s).flatten = s.filter (fun x => !isspace x) ∧
        ∀ t ∈ tokenize s, WellShaped t := by
  induction n with
  | zero =>
    intro s hs
    have : s = [] := List.length_eq_zero.mp (by omega)
    subst this
    exact ⟨rfl, fun t ht => by simp [tokenize, tokenizeLoop] at ht⟩
  | succ n ih =>
    intro s hs
    cases s with
    | nil => exact ⟨rfl, fun t ht => by simp [tokenize, tokenizeLoop] at ht⟩
    | cons c cs =>
      obtain ⟨hk1, hk2⟩ := tokStep_pos c cs
      obtain ⟨hflat, hshape⟩ := tokStep_spec c cs
      have hlen : ((c :: cs).drop (tokStep (c :: cs)).2).length ≤ n := by
        rw [List.length_drop]
        simp only [List.length_cons] at hs hk2 ⊢
        omega
      obtain ⟨ihflat, ihshape⟩ := ih _ hlen
      rw [tokenize_cons]
      constructor
      · rw [List.flatten_append, hflat, ihflat, ← List.filter_append, List.take_append_drop]
      · intro t ht
        rcases List.mem_append.mp ht with h | h
        · exact hshape t h
        · exact ihshape t h

/-- C14: `tokenize` loses and invents nothing.  For every input `s` the tokens
of `tokenize(s)`, concatenated in order, are `s` with the white space removed;
no token is empty and none holds a white-space character; every token is a run
of digits and `'.'`, or a run of alphabetic characters, or exactly one other
character; so `"++"` and `"--"` are never produced. -/
theorem C14_tokenize_lossless (s : List Char) :
    (tokenize s).flatten = s.filter (fun c => !isspace c) ∧
    (∀ t ∈ tokenize s, t ≠ [] ∧ (∀ c ∈ t, isspace c = false) ∧
      (t.all numChar = true ∨ t.all isalpha = true ∨
        ∃ c, t = [c] ∧ numChar c = false ∧ isalpha c = false)) ∧
    ['+', '+'] ∉ tokenize s ∧ ['-', '-'] ∉ tokenize s := by
  obtain ⟨hflat, hshape⟩ := tokenize_spec s.length s (le_refl _)
  refine ⟨hflat, hshape, ?_, ?_⟩
  · intro hmem
    obtain ⟨_, _, h | h | ⟨c, h, _⟩⟩ := hshape _ hmem
    · exact absurd h (by decide)
    · exact absurd h (by decide)
    · cases h
  · intro hmem
    obtain ⟨_, _, h | h | ⟨c, h, _⟩⟩ := hshape _ hmem
    · exact absurd h (by decide)
    · exact absurd h (by decide)
    · cases h

/-! ## Evaluator: parenthesis markers -/

theorem applyTop_pops {α : Type} (A : Arith α) (values operators values' operators' : stack α)
    (h : applyTop A values operators = .ok (values', operators')) :
    ∃ c, operators.topNode = .sym c :: operators'.topNode ∧
      operators.gettop = .ok (.sym c) := by
  rcases pop_cases operators with ⟨_, hp⟩ | ⟨x, rest, hx, hp⟩
  · simp [applyTop, hp, bind, Except.bind] at h
  · cases x with
    | num d => simp [applyTop, hp, NorS.getSym, bind, Except.bind] at h
    | sym c =>
      refine ⟨c, ?_, by simp [stack.gettop, hx]⟩
      rw [applyTop, hp] at h
      simp only [bind, Except.bind, pure, Except.pure, NorS.getSym] at h
      cases hb : values.pop with
      | error e => simp [hb] at h
      | ok rb =>
        cases hbn : rb.1.getNum with
        | error e => simp [hb, hbn] at h
        | ok b =>
          cases ha : rb.2.pop with
          | error e => simp [hb, hbn, ha] at h
          | ok ra =>
            cases han : ra.1.getNum with
            | error e => simp [hb, hbn, ha, han] at h
            | ok a =>
              simp only [hb, hbn, ha, han, Except.ok.injEq, Prod.mk.injEq] at h
              rw [hx, ← h.2]

theorem applyWhile_parenCount {α : Type} (A : Arith α) (cond : stack α → Except Err Bool)
    (fuel : Nat) (values operators values' operators' : stack α)
    (h : applyWhile A cond fuel values operators = .ok (values', operators')) :
    parenCount operators' ≤ parenCount operators := by
  induction fuel generalizing values operators with
  | zero =>
    simp only [applyWhile, Except.ok.injEq, Prod.mk.injEq] at h
    rw [h.2]
  | succ f ih =>
    rw [applyWhile] at h
    split at h
    · cases hc : cond operators with
      | error e => simp [hc, bind, Except.bind] at h
      | ok b =>
        cases b with
        | false =>
          simp only [hc, bind, Except.bind, pure, Except.pure, Bool.false_eq_true, if_false,
            Except.ok.injEq, Prod.mk.injEq] at h
          rw [h.2]
        | true =>
          cases ht : applyTop A values operators with
          | error e => simp [hc, ht, bind, Except.bind] at h
          | ok st =>
            obtain ⟨v1, o1⟩ := st
            simp only [hc, ht, bind, Except.bind, if_true] at h
            obtain ⟨c, hx, _⟩ := applyTop_pops A values operators v1 o1 ht
            have h1 := ih v1 o1 h
            have h2 : parenCount o1 ≤ parenCount operators := by
              simp only [parenCount, hx, List.countP_cons]
              omega
            omega
    · simp only [pure, Except.pure, Except.ok.injEq, Prod.mk.injEq] at h
      rw [h.2]

theorem applyWhile_topNotParen {α : Type} (A : Arith α) (fuel : Nat)
    (values operators values' operators' : stack α) (hf : operators.topNode.length ≤ fuel)
    (h : applyWhile A topNotParen fuel values operators = .ok (values', operators')) :
    parenCount operators' = parenCount operators ∧
      (operators'.topNode = [] ∨ ∃ rest, operators'.topNode = .sym '(' :: rest) := by
  induction fuel generalizing values operators with
  | zero =>
    simp only [applyWhile, Except.ok.injEq, Prod.mk.injEq] at h
    rw [← h.2]
    exact ⟨rfl, Or.inl (List.length_eq_zero.mp (by omega))⟩
  | succ f ih =>
    rw [applyWhile] at h
    cases hnodes : operators.topNode with
    | nil =>
      simp only [stack.empty, hnodes, List.isEmpty_nil, Bool.not_true, Bool.false_eq_true,
        if_false, pure, Except.pure, Except.ok.injEq, Prod.mk.injEq] at h
      rw [← h.2]
      exact ⟨rfl, Or.inl hnodes⟩
    | cons x rest =>
      have hne : operators.empty = false := by simp [stack.empty, hnodes]
      have hg : operators.gettop = .ok x := by simp [stack.gettop, hnodes]
      cases x with
      | num d =>
        simp [hne, topNotParen, hg, NorS.getSym, bind, Except.bind] at h
      | sym c =>
        by_cases hc : c = '('
        · subst hc
          simp only [hne, topNotParen, hg, NorS.getSym, bind, Except.bind, pure, Except.pure,
            Bool.not_false, if_true, bne_self_eq_false, Bool.false_eq_true, if_false,
            Except.ok.injEq, Prod.mk.injEq] at h
          rw [← h.2]
          exact ⟨rfl, Or.inr ⟨rest, hnodes⟩⟩
        · have hcb : (c != '(') = true := by simpa using hc
          cases ht : applyTop A values operators with
          | error e =>
            simp [hne, topNotParen, hg, NorS.getSym, hcb, ht, bind, Except.bind, pure,
              Except.pure] at h
          | ok st =>
            obtain ⟨v1, o1⟩ := st
            simp only [hne, topNotParen, hg, NorS.getSym, hcb, ht, bind, Except.bind, pure,
              Except.pure, Bool.not_false, if_true] at h
            obtain ⟨c', hx, _⟩ := applyTop_pops A values operators v1 o1 ht
            rw [hnodes] at hx
            have hcc : c' = c := by cases hx; rfl
            have hro : rest = o1.topNode := by cases hx; rfl
            have hf1 : o1.topNode.length ≤ f := by
              rw [hnodes, List.length_cons, hro] at hf
              omega
            obtain ⟨h1, h2⟩ := ih v1 o1 hf1 h
            refine ⟨?_, h2⟩
            rw [h1]
            have hcf : (c == '(') = false := by simpa using hc
            simp [parenCount, hnodes, hro, List.countP_cons, NorS.isParen, hcf]

theorem parenCount_push {α : Type} (o : stack α) (c : Char) :
    parenCount (o.push (.sym c)) = parenCount o + (if c = '(' then 1 else 0) := by
  simp [parenCount, stack.push, List.countP_cons, NorS.isParen]

/-- One token changes the number of markers on the operator stack by at most
what the token says: `"("` adds one, `")"` removes one, any other token adds
none. -/
theorem evalToken_parenCount {α : Type} (A : Arith α) (values operators values' operators' : stack α)
    (token : Token) (hplain : charAt token 0 = '(' → token = ['('])
    (h : evalToken A values operators token = .ok (values', operators')) :
    parenCount operators' + (if token = [')'] then 1 else 0) ≤
      parenCount operators + (if token = ['('] then 1 else 0) := by
  unfold evalToken at h
  split at h
  · rename_i hnum
    have ho : token ≠ ['('] := by
      intro heq; subst heq; exact absurd hnum (by decide)
    have hc : token ≠ [')'] := by
      intro heq; subst heq; exact absurd hnum (by decide)
    cases hs : A.stod token with
    | error e => simp [hs] at h
    | ok d =>
      simp only [hs, Except.ok.injEq, Prod.mk.injEq] at h
      rw [← h.2]
      simp [ho, hc]
  · split at h
    · rename_i _ halpha
      have ho : token ≠ ['('] := by
        intro heq; subst heq; exact absurd halpha (by decide)
      have hc : token ≠ [')'] := by
        intro heq; subst heq; exact absurd halpha (by decide)
      have hO : operators' = operators := by
        split at h
        · simp only [Except.ok.injEq, Prod.mk.injEq] at h; exact h.2.symm
        · split at h
          · simp only [Except.ok.injEq, Prod.mk.injEq] at h; exact h.2.symm
          · cases h
      rw [hO]
      simp [ho, hc]
    · split at h
      · rename_i _ _ hopen
        have ho : token = ['('] := by simpa using hopen
        simp only [Except.ok.injEq, Prod.mk.injEq] at h
        rw [← h.2, parenCount_push]
        simp [ho]
      · split at h
        · rename_i _ _ hno hclose
          have hc : token = [')'] := by simpa using hclose
          have ho : token ≠ ['('] := by simpa using hno
          cases hw : applyWhile A topNotParen operators.topNode.length values operators with
          | error e => simp [hw, bind, Except.bind] at h
          | ok st =>
            obtain ⟨v1, o1⟩ := st
            obtain ⟨h1, h2⟩ := applyWhile_topNotParen A _ values operators v1 o1 (le_refl _) hw
            rcases h2 with hnil | ⟨rest, hrest⟩
            · simp [hw, bind, Except.bind, stack.empty, hnil, throw, throwThe,
                MonadExceptOf.throw] at h
            · rcases pop_cases o1 with ⟨hn, _⟩ | ⟨x, r, hx, hp⟩
              · rw [hn] at hrest; cases hrest
              · simp only [hw, bind, Except.bind, stack.empty, hrest, List.isEmpty_cons,
                  Bool.false_eq_true, if_false, hp, pure, Except.pure, Except.ok.injEq,
                  Prod.mk.injEq] at h
                rw [← h.2]
                rw [hx] at hrest
                have hr : r = rest := by cases hrest; rfl
                have hcount : parenCount o1 = parenCount (⟨r, o1.length - 1⟩ : stack α) + 1 := by
                  simp only [parenCount, hx]
                  cases hrest
                  simp [List.countP_cons, NorS.isParen]
                simp only [hc, if_true]
                simp
                omega
        · rename_i _ _ hno hnc
          have ho : token ≠ ['('] := by simpa using hno
          have hc : token ≠ [')'] := by simpa using hnc
          have hch : charAt token 0 ≠ '(' := fun hp => ho (hplain hp)
          cases hw : applyWhile A (topPrecGe token) operators.topNode.length values operators with
          | error e => simp [hw, bind, Except.bind] at h
          | ok st =>
            obtain ⟨v1, o1⟩ := st
            have h1 := applyWhile_parenCount A _ _ values operators v1 o1 hw
            simp only [hw, bind, Except.bind, pure, Except.pure, Except.ok.injEq,
              Prod.mk.injEq] at h
            rw [← h.2, parenCount_push]
            simp [ho, hc, hch]
            exact h1

theorem evalTokens_parenCount {α : Type} (A : Arith α) (tokens : List Token)
    (values operators values' operators' : stack α) (hplain : PlainParens tokens)
    (h : evalTokens A tokens values operators = .ok (values', operators')) :
    parenCount operators' + tokens.count [')'] ≤ parenCount operators + tokens.count ['('] := by
  induction tokens generalizing values operators with
  | nil =>
    simp only [evalTokens, Except.ok.injEq, Prod.mk.injEq] at h
    rw [h.2]
    simp
  | cons t r ih =>
    rw [evalTokens] at h
    cases ht : evalToken A values operators t with
    | error e => simp [ht, bind, Except.bind] at h
    | ok st =>
      obtain ⟨v1, o1⟩ := st
      simp only [ht, bind, Except.bind] at h
      have h1 := evalToken_parenCount A values operators v1 o1 t
        (hplain t (List.mem_cons_self _ _)) ht
      have h2 := ih v1 o1 (fun u hu => hplain u (List.mem_cons_of_mem _ hu)) h
      simp only [List.count_cons, beq_iff_eq]
      omega

theorem wellShaped_plain (t : Token) (h : WellShaped t) (hp : charAt t 0 = '(') :
    t = ['('] := by
  obtain ⟨hne, _, hn | ha | ⟨c, rfl, _, _⟩⟩ := h
  · cases t with
    | nil => exact absurd rfl hne
    | cons c cs =>
      have hc : c = '(' := hp
      subst hc
      simp only [List.all_cons, Bool.and_eq_true] at hn
      exact absurd hn.1 (by decide)
  · cases t with
    | nil => exact absurd rfl hne
    | cons c cs =>
      have hc : c = '(' := hp
      subst hc
      simp only [List.all_cons, Bool.and_eq_true] at ha
      exact absurd ha.1 (by decide)
  · have hc : c = '(' := hp
    rw [hc]

theorem parenCount_zero {α : Type} (o : stack α) (h : parenCount o = 0) :
    ∀ x ∈ o.topNode, x ≠ NorS.sym '(' := by
  intro x hx heq
  subst heq
  have hpos : 0 < parenCount o := List.countP_pos_iff.mpr ⟨_, hx, rfl⟩
  omega

/-- C19 as stated fails: the one token `"(x"` is accepted by `is_valid_expression`
(it is not the token `"("`), the token loop of `evaluate_expression` completes on
it, and the operator stack then holds the marker `'('`, pushed as the first
character of an operator token. -/
theorem C19_marker_left_counterexample :
    is_valid_expression Int [['(', 'x']] = .ok true ∧
    evalTokens intArith [['(', 'x']] stack.new stack.new =
      .ok (stack.new, stack.new.push (.sym '(')) := by
  decide

/-- C19 (amended): for every token sequence in which no token other than `"("`
itself begins with `'('` (so for every result of `tokenize`), which
`is_valid_expression` accepts and on which the token loop of
`evaluate_expression` completes without an exception, the operator stack holds no
marker `'('` when the last loop starts. -/
theorem C19_no_marker_at_drain {α : Type} (A : Arith α) (tokens : List Token)
    (values operators : stack α) (hplain : PlainParens tokens)
    (hvalid : is_valid_expression α tokens = .ok true)
    (hloop : evalTokens A tokens stack.new stack.new = .ok (values, operators)) :
    parenCount operators = 0 ∧
    (∀ x ∈ operators.topNode, x ≠ NorS.sym '(') ∧
    ∀ s : List Char, PlainParens (tokenize s) := by
  have hcount : parenCount operators = 0 := by
    have hbal : tokens.count ['('] = tokens.count [')'] := by
      rw [is_valid_expression_eq] at hvalid
      have hv : okFrom tokens 0 tokens 0 = true := by
        simpa using hvalid
      have := (okFrom_balanced tokens tokens 0 0 hv).2
      omega
    have h := evalTokens_parenCount A tokens stack.new stack.new values operators hplain hloop
    have h0 : parenCount (stack.new : stack α) = 0 := rfl
    omega
  refine ⟨hcount, parenCount_zero operators hcount, ?_⟩
  intro s t ht hp
  exact wellShaped_plain t ((tokenize_spec s.length s (le_refl _)).2 t ht) hp

/-- Witness of C19 (amended) on the tokens of `"( 1 + 2 ) * 3 - 4"`, in integer
arithmetic: the operator `'-'` is what is left for the last loop. -/
theorem C19_no_marker_at_drain_witness :
    parenCount (⟨[.sym '-'], 1⟩ : stack Int) = 0 :=
  (C19_no_marker_at_drain intArith (tokenize "( 1 + 2 ) * 3 - 4".toList)
    ⟨[.num 4, .num 9], 2⟩ ⟨[.sym '-'], 1⟩ (by unfold PlainParens; decide) (by decide)
    (by decide)).1

/-! ## Polynomial calculator -/

theorem wrapInt_wrapInt (a : Int) : wrapInt (wrapInt a) = wrapInt a := by
  unfold wrapInt; omega

theorem wrapInt_add_congr (a a' b b' : Int) (ha : wrapInt a = wrapInt a')
    (hb : wrapInt b = wrapInt b') : wrapInt (a + b) = wrapInt (a' + b') := by
  unfold wrapInt at *; omega

theorem wrapInt_add_left (a b : Int) : wrapInt (wrapInt a + b) = wrapInt (a + b) :=
  wrapInt_add_congr _ _ _ _ (wrapInt_wrapInt a) rfl

theorem wrapInt_of_inRange (x : Int) (h : InRange x) : wrapInt x = x := by
  unfold InRange at h; unfold wrapInt; omega

theorem sumAt_nil (e : Int) : sumAt [] e = 0 := rfl

theorem sumAt_cons (n : PolyNode) (l : List PolyNode) (e : Int) :
    sumAt (n :: l) e = (if n.exp = e then n.coef else 0) + sumAt l e := by
  by_cases h : n.exp = e
  · simp [sumAt, List.filter_cons, h]
  · simp [sumAt, List.filter_cons, h]

theorem sumAt_append (a b : List PolyNode) (e : Int) :
    sumAt (a ++ b) e = sumAt a e + sumAt b e := by
  simp [sumAt, List.filter_append, List.map_append, List.sum_append]

theorem mergeScan_snd (exp coef : Int) (l : List PolyNode) :
    (mergeScan exp coef l).2 = l.filter (fun n => !(n.exp == exp)) := by
  induction l generalizing coef with
  | nil => rfl
  | cons n rest ih =>
    rw [mergeScan]
    by_cases h : exp = n.exp
    · subst h
      simp [ih, List.filter_cons]
    · have h' : ¬ n.exp = exp := fun hh => h hh.symm
      simp [h, h', ih, List.filter_cons]

theorem mergeScan_fst (exp coef : Int) (l : List PolyNode) :
    wrapInt (mergeScan exp coef l).1 = wrapInt (coef + sumAt l exp) := by
  induction l generalizing coef with
  | nil => simp [mergeScan, sumAt_nil]
  | cons n rest ih =>
    rw [mergeScan, sumAt_cons]
    by_cases h : exp = n.exp
    · subst h
      simp only [beq_self_eq_true, if_true]
      rw [ih, wrapInt_add_left]
      congr 1
      ring
    · have h' : ¬ n.exp = exp := fun hh => h hh.symm
      simp only [beq_iff_eq, h, h', if_false, zero_add]
      exact ih coef

theorem mergeScan_fst_wrapped (exp coef : Int) (l : List PolyNode)
    (hc : wrapInt coef = coef) :
    wrapInt (mergeScan exp coef l).1 = (mergeScan exp coef l).1 := by
  induction l generalizing coef with
  | nil => simpa [mergeScan] using hc
  | cons n rest ih =>
    rw [mergeScan]
    by_cases h : exp = n.exp
    · subst h
      simp only [beq_self_eq_true, if_true]
      exact ih _ (wrapInt_wrapInt _)
    · simp only [beq_iff_eq, h, if_false]
      exact ih coef hc

theorem coefficientAt_nil (e : Int) : coefficientAt [] e = 0 := rfl

theorem coefficientAt_cons (n : PolyNode) (l : List PolyNode) (e : Int) :
    coefficientAt (n :: l) e = if n.exp = e then n.coef else coefficientAt l e := by
  by_cases h : n.exp = e
  · simp [coefficientAt, List.find?_cons, h]
  · simp [coefficientAt, List.find?_cons, h]

theorem coefficientAt_wrapped (l : List PolyNode) (e : Int)
    (h : ∀ n ∈ l, wrapInt n.coef = n.coef) :
    wrapInt (coefficientAt l e) = coefficientAt l e := by
  induction l with
  | nil => rfl
  | cons n rest ih =>
    rw [coefficientAt_cons]
    split
    · exact h n (List.mem_cons_self _ _)
    · exact ih (fun m hm => h m (List.mem_cons_of_mem _ hm))

theorem sumAt_filter_ne (l : List PolyNode) (exp e : Int) (hne : exp ≠ e) :
    sumAt (l.filter (fun n => !(n.exp == exp))) e = sumAt l e := by
  induction l with
  | nil => rfl
  | cons n rest ih =>
    by_cases h : n.exp = exp
    · have hne' : ¬ n.exp = e := fun hh => hne (h ▸ hh)
      simp [List.filter_cons, h, sumAt_cons, hne', ih, hne]
    · simp [List.filter_cons, h, sumAt_cons, ih]

/-- The merge of like terms: the exponents of the result are exponents of the
list, they are pairwise distinct, the coefficient of an exponent is the sum of
the coefficients it had in the list, as an `int`, and `fuel` never ends the loop. -/
theorem mergeLoop_spec (fuel : Nat) :
    ∀ l : List PolyNode, l.length ≤ fuel →
      (∀ n ∈ mergeLoop fuel l, ∃ m ∈ l, m.exp = n.exp) ∧
      ((mergeLoop fuel l).map PolyNode.exp).Nodup ∧
      (∀ e, wrapInt (coefficientAt (mergeLoop fuel l) e) = wrapInt (sumAt l e)) ∧
      ((∀ n ∈ l, wrapInt n.coef = n.coef) →
        ∀ n ∈ mergeLoop fuel l, wrapInt n.coef = n.coef) ∧
      mergeLoop (fuel + 1) l = mergeLoop fuel l := by
  induction fuel with
  | zero =>
    intro l hl
    have : l = [] := List.length_eq_zero.mp (by omega)
    subst this
    exact ⟨by simp [mergeLoop], by simp [mergeLoop], fun e => rfl, fun _ => by simp [mergeLoop],
      rfl⟩
  | succ fuel ih =>
    intro l hl
    cases l with
    | nil =>
      exact ⟨by simp [mergeLoop], by simp [mergeLoop], fun e => rfl,
        fun _ => by simp [mergeLoop], rfl⟩
    | cons cur next =>
      have hlen : (next.filter (fun n => !(n.exp == cur.exp))).length ≤ fuel :=
        le_trans (List.length_filter_le _ _) (by simpa using hl)
      obtain ⟨h1, h2, h3, h4, h5⟩ := ih _ hlen
      have hstep : ∀ f, mergeLoop (f + 1) (cur :: next) =
          ⟨(mergeScan cur.exp cur.coef next).1, cur.exp⟩ ::
            mergeLoop f (next.filter (fun n => !(n.exp == cur.exp))) := by
        intro f
        rw [mergeLoop, mergeScan_snd]
      rw [hstep fuel]
      refine ⟨?_, ?_, ?_, ?_, ?_⟩
      · intro n hn
        rcases List.mem_cons.mp hn with rfl | hn
        · exact ⟨cur, List.mem_cons_self _ _, rfl⟩
        · obtain ⟨m, hm, hme⟩ := h1 n hn
          exact ⟨m, List.mem_cons_of_mem _ (List.mem_filter.mp hm).1, hme⟩
      · rw [List.map_cons, List.nodup_cons]
        refine ⟨?_, h2⟩
        intro hmem
        obtain ⟨n, hn, hne⟩ := List.mem_map.mp hmem
        obtain ⟨m, hm, hme⟩ := h1 n hn
        have := (List.mem_filter.mp hm).2
        simp only [Bool.not_eq_true', beq_eq_false_iff_ne, ne_eq] at this
        exact this (hme.trans hne)
      · intro e
        rw [coefficientAt_cons, sumAt_cons]
        by_cases he : cur.exp = e
        · subst he
          simp only [if_true]
          exact mergeScan_fst _ _ _
        · simp only [he, if_false, zero_add]
          rw [h3 e, sumAt_filter_ne next cur.exp e he]
      · intro hw n hn
        rcases List.mem_cons.mp hn with rfl | hn
        · exact mergeScan_fst_wrapped _ _ _ (hw cur (List.mem_cons_self _ _))
        · exact h4 (fun m hm => hw m (List.mem_cons_of_mem _ (List.mem_filter.mp hm).1)) n hn
      · rw [hstep (fuel + 1), h5]

theorem termPairs_cons (p1 : PolyNode) (rest terms2 : List PolyNode) :
    termPairs (p1 :: rest) terms2 = terms2.map (fun t2 => (p1, t2)) ++ termPairs rest terms2 := by
  simp [termPairs, List.flatMap_cons]

theorem pairSumInt_cons (p1 : PolyNode) (rest terms2 : List PolyNode) (e : Int) :
    pairSumInt (p1 :: rest) terms2 e = pairSumInt [p1] terms2 e + pairSumInt rest terms2 e := by
  have h1 : termPairs [p1] terms2 = terms2.map (fun t2 => (p1, t2)) := by
    simp [termPairs]
  simp only [pairSumInt, termPairs_cons, h1, List.filter_append, List.map_append,
    List.sum_append]

theorem pairSumInt_row_cons (p1 t : PolyNode) (r : List PolyNode) (e : Int) :
    pairSumInt [p1] (t :: r) e =
      (if wrapInt (p1.exp + t.exp) = e then p1.coef * t.coef else 0) + pairSumInt [p1] r e := by
  have h1 : ∀ l : List PolyNode, termPairs [p1] l = l.map (fun t2 => (p1, t2)) := by
    intro l; simp [termPairs]
  simp only [pairSumInt, h1, List.map_cons, List.filter_cons]
  by_cases h : wrapInt (p1.exp + t.exp) = e
  · simp [h]
  · simp [h]

theorem pairSumInt_row_nil (p1 : PolyNode) (e : Int) : pairSumInt [p1] [] e = 0 := by
  simp [pairSumInt, termPairs]

theorem sumAt_productRow (p1 : PolyNode) (terms2 : List PolyNode) (e : Int) :
    wrapInt (sumAt (productRow p1 terms2) e) = wrapInt (pairSumInt [p1] terms2 e) := by
  induction terms2 with
  | nil => rw [pairSumInt_row_nil]; rfl
  | cons t r ih =>
    rw [productRow, sumAt_cons, pairSumInt_row_cons]
    apply wrapInt_add_congr _ _ _ _ _ ih
    simp only
    split
    · exact wrapInt_wrapInt _
    · rfl

theorem sumAt_productTerms (terms1 terms2 : List PolyNode) (e : Int) :
    wrapInt (sumAt (productTerms terms1 terms2) e) = wrapInt (pairSumInt terms1 terms2 e) := by
  induction terms1 with
  | nil => simp [productTerms, pairSumInt, termPairs, sumAt_nil]
  | cons p1 rest ih =>
    rw [productTerms, sumAt_append, pairSumInt_cons]
    exact wrapInt_add_congr _ _ _ _ (sumAt_productRow p1 terms2 e) ih

theorem productRow_wrapped (p1 : PolyNode) (terms2 : List PolyNode) :
    ∀ n ∈ productRow p1 terms2, wrapInt n.coef = n.coef := by
  induction terms2 with
  | nil => intro n hn; simp [productRow] at hn
  | cons t r ih =>
    intro n hn
    rw [productRow] at hn
    rcases List.mem_cons.mp hn with rfl | hn
    · exact wrapInt_wrapInt _
    · exact ih n hn

theorem productTerms_wrapped (terms1 terms2 : List PolyNode) :
    ∀ n ∈ productTerms terms1 terms2, wrapInt n.coef = n.coef := by
  induction terms1 with
  | nil => intro n hn; simp [productTerms] at hn
  | cons p1 rest ih =>
    intro n hn
    rw [productTerms] at hn
    rcases List.mem_append.mp hn with h | h
    · exact productRow_wrapped p1 terms2 n h
    · exact ih n h

theorem productTerms_nil_right (terms1 : List PolyNode) : productTerms terms1 [] = [] := by
  induction terms1 with
  | nil => rfl
  | cons p1 rest ih => simp [productTerms, productRow, ih]

theorem mem_termPairs (terms1 terms2 : List PolyNode) (p : PolyNode × PolyNode)
    (h : p ∈ termPairs terms1 terms2) : p.1 ∈ terms1 ∧ p.2 ∈ terms2 := by
  simp only [termPairs, List.mem_flatMap, List.mem_map] at h
  obtain ⟨a, ha, b, hb, rfl⟩ := h
  exact ⟨ha, hb⟩

theorem pairSumInt_eq_pairSum (terms1 terms2 : List PolyNode) (e : Int)
    (h : ∀ t1 ∈ terms1, ∀ t2 ∈ terms2, InRange (t1.exp + t2.exp)) :
    pairSumInt terms1 terms2 e = pairSum terms1 terms2 e := by
  unfold pairSumInt pairSum
  congr 2
  apply List.filter_congr
  intro p hp
  obtain ⟨h1, h2⟩ := mem_termPairs terms1 terms2 p hp
  rw [wrapInt_of_inRange _ (h p.1 h1 p.2 h2)]

/-- C21: `multiplyPolynomial` computes the product with like terms merged.  For
all term lists behind dummy heads, in any order and with exponents repeated or
not, the returned list has pairwise distinct exponents, and for every exponent
`e` its coefficient in the result (0 if absent) is the sum of `t1.coef * t2.coef`
over the pairs of terms with `t1.exp + t2.exp = e`, in `int` arithmetic; when the
exponent sums and that sum of products are values of type `int`, it is that sum
in the integers.  The result is empty when a list has no terms. -/
theorem C21_multiply_merges_like_terms (head1 head2 : PolyNode)
    (terms1 terms2 : List PolyNode) :
    ((multiplyPolynomial (head1 :: terms1) (head2 :: terms2)).map PolyNode.exp).Nodup ∧
    (∀ e, coefficientAt (multiplyPolynomial (head1 :: terms1) (head2 :: terms2)) e =
      wrapInt (pairSumInt terms1 terms2 e)) ∧
    ((∀ t1 ∈ terms1, ∀ t2 ∈ terms2, InRange (t1.exp + t2.exp)) →
      ∀ e, InRange (pairSum terms1 terms2 e) →
        coefficientAt (multiplyPolynomial (head1 :: terms1) (head2 :: terms2)) e =
          pairSum terms1 terms2 e) ∧
    (terms1 = [] ∨ terms2 = [] →
      multiplyPolynomial (head1 :: terms1) (head2 :: terms2) = []) ∧
    multiplyPolynomial [] (head2 :: terms2) = [] ∧
    multiplyPolynomial (head1 :: terms1) [] = [] := by
  have hmul : multiplyPolynomial (head1 :: terms1) (head2 :: terms2) =
      mergeLoop (productTerms terms1 terms2).length (productTerms terms1 terms2) := rfl
  obtain ⟨_, h2, h3, h4, _⟩ :=
    mergeLoop_spec (productTerms terms1 terms2).length (productTerms terms1 terms2) (le_refl _)
  have hcoef : ∀ e, coefficientAt (multiplyPolynomial (head1 :: terms1) (head2 :: terms2)) e =
      wrapInt (pairSumInt terms1 terms2 e) := by
    intro e
    rw [hmul, ← coefficientAt_wrapped _ e (h4 (productTerms_wrapped terms1 terms2)), h3 e,
      sumAt_productTerms]
  refine ⟨by rw [hmul]; exact h2, hcoef, ?_, ?_, rfl, rfl⟩
  · intro hexp e hsum
    rw [hcoef e, pairSumInt_eq_pairSum terms1 terms2 e hexp, wrapInt_of_inRange _ hsum]
  · intro hempty
    rw [hmul]
    rcases hempty with h | h
    · subst h; rfl
    · subst h; rw [productTerms_nil_right]; rfl

/-- Witness of C21 on `(x + 1) * (x - 1)`: the coefficient of `x` in the result
is `1 * (-1) + 1 * 1`. -/
theorem C21_multiply_merges_like_terms_witness :
    coefficientAt (multiplyPolynomial [⟨0, 0⟩, ⟨1, 1⟩, ⟨1, 0⟩] [⟨0, 0⟩, ⟨1, 1⟩, ⟨-1, 0⟩]) 1 =
      pairSum [⟨1, 1⟩, ⟨1, 0⟩] [⟨1, 1⟩, ⟨-1, 0⟩] 1 :=
  (C21_multiply_merges_like_terms ⟨0, 0⟩ ⟨0, 0⟩ [⟨1, 1⟩, ⟨1, 0⟩] [⟨1, 1⟩, ⟨-1, 0⟩]).2.2.1
    (by unfold InRange; decide) 1 (by unfold InRange; decide)

/-- The loop `while (tempDivisor != NULL)` reads `tempDivisor->next->coef` at
every node, the last one included: started at a node it ends in a read through
`NULL`. -/
theorem divisorProducts_null (newNode : PolyNode) (chain acc : List PolyNode)
    (h : chain ≠ []) : divisorProducts newNode chain acc = .error .nullDereference := by
  induction chain generalizing acc with
  | nil => exact absurd rfl h
  | cons n next ih =>
    cases next with
    | nil => rfl
    | cons t rest =>
      rw [divisorProducts]
      exact ih _ (by simp)

/-- C22 (the code does otherwise): whenever the dividend has a term whose
exponent is not below that of the first term of the divisor (the coefficient of
that term not 0), `dividePolynomial` does not return.  It reads
`tempDivisor->next->coef` with `tempDivisor->next == NULL` in its first pass,
whatever the bound on the iterations: the loop that multiplies the divisor runs
`while (tempDivisor != NULL)` from the dummy head, one node too far; only the
division `INT_MIN / -1` of the leading coefficients, which comes first, ends the
run before that.  So for dividend `x` and divisor `x` no quotient 1 and remainder
0 are returned.  The function returns, with an empty quotient and the dividend as
remainder, when the dividend has no term or starts with a smaller exponent than
the divisor. -/
theorem C22_divide_reads_null (fresh : Nat → PolyNode) (fuel : Nat) (head1 head2 v : PolyNode)
    (vs : List PolyNode) :
    (∀ (d : PolyNode) (ds : List PolyNode), v.exp ≤ d.exp → v.coef ≠ 0 →
      dividePolynomial fresh (fuel + 1) (head1 :: d :: ds) (head2 :: v :: vs) =
        some (.error (if d.coef = -2147483648 ∧ v.coef = -1 then Fault.divisionOverflow
          else Fault.nullDereference))) ∧
    dividePolynomial fresh (fuel + 1) [head1, ⟨1, 1⟩] [head2, ⟨1, 1⟩] =
      some (.error .nullDereference) ∧
    (∀ (d : PolyNode) (ds : List PolyNode), d.exp < v.exp →
      dividePolynomial fresh (fuel + 1) (head1 :: d :: ds) (head2 :: v :: vs) =
        some (.ok ([], d :: ds))) ∧
    dividePolynomial fresh (fuel + 1) [head1] (head2 :: v :: vs) = some (.ok ([], [])) := by
  have hgen : ∀ (w d : PolyNode) (ws ds : List PolyNode), w.exp ≤ d.exp → w.coef ≠ 0 →
      dividePolynomial fresh (fuel + 1) (head1 :: d :: ds) (head2 :: w :: ws) =
        some (.error (if d.coef = -2147483648 ∧ w.coef = -1 then Fault.divisionOverflow
          else Fault.nullDereference)) := by
    intro w d ws ds hexp hcoef
    have hc : (w.coef == 0) = false := by simpa using hcoef
    simp only [dividePolynomial, divideLoop, ge_iff_le, hexp, if_true, hc, Bool.false_eq_true,
      if_false]
    rw [divisorProducts_null _ _ _ (by simp)]
    by_cases hmin : d.coef = -2147483648 ∧ w.coef = -1
    · simp [hmin.1, hmin.2]
    · rw [if_neg hmin, if_neg (by simpa using hmin)]
  refine ⟨fun d ds hexp hcoef => hgen v d vs ds hexp hcoef, ?_, ?_, rfl⟩
  · have h := hgen ⟨1, 1⟩ ⟨1, 1⟩ [] [] (le_refl _) (by decide)
    rw [h]
    rfl
  · intro d ds hlt
    have hn : ¬ v.exp ≤ d.exp := by omega
    simp [dividePolynomial, divideLoop, hn]

/-- Witness of C22: dividend `x^2 + 1`, divisor `x + 1`. -/
theorem C22_divide_reads_null_witness :
    dividePolynomial (fun _ => ⟨0, 0⟩) 3 [⟨0, 0⟩, ⟨1, 2⟩, ⟨1, 0⟩] [⟨0, 0⟩, ⟨1, 1⟩, ⟨1, 0⟩] =
      some (.error .nullDereference) :=
  (C22_divide_reads_null (fun _ => ⟨0, 0⟩) 2 ⟨0, 0⟩ ⟨0, 0⟩ ⟨1, 1⟩ [⟨1, 0⟩]).1 ⟨1, 2⟩ [⟨1, 0⟩]
    (by decide) (by decide)

/-- The bound given to the first loop of `subtractPolynomial` is never what ends
it: a larger bound gives the same list. -/
theorem subtractTerms_fuel (fuel : Nat) :
    ∀ p1 p2 : List PolyNode, p1.length + p2.length ≤ fuel →
      subtractTerms (fuel + 1) p1 p2 = subtractTerms fuel p1 p2 := by
  induction fuel with
  | zero =>
    intro p1 p2 h
    have h1 : p1 = [] := List.length_eq_zero.mp (by omega)
    subst h1
    simp [subtractTerms]
  | succ f ih =>
    intro p1 p2 h
    cases p1 with
    | nil => simp [subtractTerms]
    | cons n1 r1 =>
      cases p2 with
      | nil => simp [subtractTerms]
      | cons n2 r2 =>
        simp only [List.length_cons] at h
        rw [subtractTerms, subtractTerms]
        rw [ih r1 (n2 :: r2) (by simp only [List.length_cons]; omega),
          ih (n1 :: r1) r2 (by simp only [List.length_cons]; omega),
          ih r1 r2 (by omega)]

end Shiyer
